import Mathlib

/-!
Shallow embedding of `src/vault.py` (loxodo, PasswordSafe V3 vault codec).

Bytes are modelled as `List Nat` (each entry a byte value in the program's
runs).  The external collaborators that the spec explicitly excludes —
the Twofish block cipher (ECB single-block and CBC chained modes), the
SHA-256 digest and the HMAC keyed digest, and the OS randomness source —
are parameters of the definitions, exactly as they are imported modules
in the source.  The chained cipher is modelled as a state machine
`σ → block → block × σ` (the state carries the CBC chaining value), the
way `TwofishCBC` objects carry theirs across successive
`encrypt`/`decrypt` calls.

A file handle open for reading is modelled as the list of bytes not yet
consumed; `filehandle.read n` is `take n` for the data and `drop n` for
the new handle position (Python returns fewer bytes than requested at
end of file, and the empty string once the file is exhausted, which this
models faithfully).
-/

namespace Loxodo

set_option maxRecDepth 1000000

abbrev Bytes := List Nat

/-- The 4-byte magic tag "PWS3" (`vault.py` line 258). -/
def pws3Tag : Bytes := [80, 87, 83, 51]

/-- The literal unencrypted end-of-file marker "PWS3-EOFPWS3-EOF"
(`vault.py` lines 198 and 230). -/
def pws3EofMarker : Bytes :=
  [80, 87, 83, 51, 45, 69, 79, 70, 80, 87, 83, 51, 45, 69, 79, 70]

/-- `struct.unpack("<L", b)[0]`: little-endian unsigned 32-bit decode of the
first four bytes.  (Python raises `struct.error` when fewer than four bytes
are supplied; the embedding totalises with zero defaults, and every theorem
below only evaluates it on four-byte inputs.) -/
def le32 (b : Bytes) : Nat :=
  b.getD 0 0 + 256 * b.getD 1 0 + 65536 * b.getD 2 0 + 16777216 * b.getD 3 0

/-- `struct.pack("<L", n)`: little-endian unsigned 32-bit encode. -/
def le32pack (n : Nat) : Bytes :=
  [n % 256, n / 256 % 256, n / 65536 % 256, n / 16777216 % 256]

theorem le32_le32pack {n : Nat} (h : n < 4294967296) : le32 (le32pack n) = n := by
  simp only [le32, le32pack, List.getD_cons_zero, List.getD_cons_succ]
  omega

/-- `Vault.Field` (`vault.py` lines 63-72): the raw on-disk representation of
one field. -/
structure Field where
  raw_type : Nat
  raw_len : Nat
  raw_value : Bytes
deriving DecidableEq

/-- `Header.add_raw_field` / `Record.add_raw_field` store a field in a dict
keyed by `raw_type` (`vault.py` lines 83-84, 100-101): setting a key that is
already present replaces its value, a fresh key is added.  The dict is
modelled as an association list.  (`Record.add_raw_field` additionally caches
utf-8 decoded string views of the five known field types 0x02-0x06; those
caches are pure presentation-layer decodes of the stored `raw_value` and are
not separately modelled.) -/
def addRawField (fields : List (Nat × Field)) (f : Field) : List (Nat × Field) :=
  if (fields.lookup f.raw_type).isSome then
    fields.map (fun p => if p.1 = f.raw_type then (p.1, f) else p)
  else fields ++ [(f.raw_type, f)]

/-- `Vault.Record` (`vault.py` lines 86-111): a dict of raw fields. -/
structure Record where
  raw_fields : List (Nat × Field)
deriving DecidableEq

/-- `Vault._stretch_password` (`vault.py` lines 176-189):
`sha(password ‖ salt)` followed by `iterations` further rounds of `sha`,
written as the source's `for dummy in range(iterations)` loop. -/
def stretch_password (sha256 : Bytes → Bytes) (password salt : Bytes)
    (iterations : Nat) : Bytes :=
  (List.range iterations).foldl (fun sp _ => sha256 sp) (sha256 (password ++ salt))

/-- `_stretch_password` instrumented with a counter of hash invocations:
the initial digest is one invocation, each loop round is one more. -/
def stretch_password_traced (sha256 : Bytes → Bytes) (password salt : Bytes)
    (iterations : Nat) : Bytes × Nat :=
  (List.range iterations).foldl (fun sp _ => (sha256 sp.1, sp.2 + 1))
    (sha256 (password ++ salt), 1)

/-- Outcome of `Vault._read_field_tlv` (`vault.py` lines 191-214).
`err` is a raised `VaultFormatError`; `exit` is the
`print "Emergency Exit"; sys.exit(1)` path (process termination, no
exception delivered to the caller); `eof` is `return None`; `ok` is a
returned `Field`.  `eof` and `ok` carry the cipher state and the
remaining (unread) part of the stream. -/
inductive FieldResult (σ : Type) where
  | err (msg : String)
  | exit (code : Nat)
  | eof (st : σ) (rest : Bytes)
  | ok (f : Field) (st : σ) (rest : Bytes)
deriving DecidableEq

/-- Whether a `FieldResult` is the raised-`VaultFormatError` outcome. -/
def FieldResult.isErr {σ : Type} : FieldResult σ → Bool
  | .err _ => true
  | _ => false

/-- The continuation-block loop of `_read_field_tlv` (`vault.py` lines
208-212): `for dummy in range((raw_len+4)//16)`, each round reading 16
bytes, returning `None` (modelled as the `none` component) if the read
comes back empty, else appending the decrypted block to the accumulator. -/
def read_blocks {σ : Type} (dec : σ → Bytes → Bytes × σ) :
    Nat → σ → Bytes → Bytes → Option Bytes × σ × Bytes
  | 0, st, stream, acc => (some acc, st, stream)
  | n + 1, st, stream, acc =>
    if stream.take 16 = [] then (none, st, stream)
    else
      read_blocks dec n (dec st (stream.take 16)).2 (stream.drop 16)
        (acc ++ (dec st (stream.take 16)).1)

/-- `Vault._read_field_tlv` (`vault.py` lines 191-214). -/
def read_field_tlv {σ : Type} (dec : σ → Bytes → Bytes × σ) (st : σ)
    (stream : Bytes) : FieldResult σ :=
  let data := stream.take 16
  if data = [] then .err "EOF encountered when parsing record field"
  else if data = pws3EofMarker then .eof st (stream.drop 16)
  else
    let pt := (dec st data).1
    let st₁ := (dec st data).2
    let raw_len := le32 (pt.take 4)
    let raw_type := pt.getD 4 0
    let raw_value := pt.drop 5
    if 11 < raw_len then
      if 1024 < raw_len then .exit 1
      else
        match read_blocks dec ((raw_len + 4) / 16) st₁ (stream.drop 16) raw_value with
        | (none, st₂, rest₂) => .eof st₂ rest₂
        | (some v, st₂, rest₂) => .ok ⟨raw_type, raw_len, v.take raw_len⟩ st₂ rest₂
    else .ok ⟨raw_type, raw_len, raw_value.take raw_len⟩ st₁ (stream.drop 16)

theorem read_blocks_rest_le {σ : Type} (dec : σ → Bytes → Bytes × σ) :
    ∀ (n : Nat) (st : σ) (stream acc : Bytes),
      (read_blocks dec n st stream acc).2.2.length ≤ stream.length := by
  intro n
  induction n with
  | zero => intro st stream acc; simp [read_blocks]
  | succ n ih =>
    intro st stream acc
    simp only [read_blocks]
    by_cases h : stream.take 16 = []
    · simp [h]
    · simp only [h, if_neg, ite_false]
      calc (read_blocks dec n (dec st (stream.take 16)).2 (stream.drop 16)
              (acc ++ (dec st (stream.take 16)).1)).2.2.length
          ≤ (stream.drop 16).length := ih _ _ _
        _ ≤ stream.length := by simp [List.length_drop]

theorem read_blocks_eq_rest_le {σ : Type} {dec : σ → Bytes → Bytes × σ}
    {n : Nat} {st : σ} {stream acc : Bytes} {v? : Option Bytes} {st₂ : σ}
    {rest₂ : Bytes} (h : read_blocks dec n st stream acc = (v?, st₂, rest₂)) :
    rest₂.length ≤ stream.length := by
  have h2 := read_blocks_rest_le dec n st stream acc
  rw [h] at h2
  exact h2

theorem read_field_tlv_ok_rest_lt {σ : Type} {dec : σ → Bytes → Bytes × σ}
    {st : σ} {stream : Bytes} {f : Field} {st' : σ} {rest : Bytes}
    (h : read_field_tlv dec st stream = .ok f st' rest) :
    rest.length < stream.length := by
  have hpos : 0 < stream.length := by
    rcases stream with _ | ⟨a, s⟩
    · simp [read_field_tlv] at h
    · simp
  simp only [read_field_tlv] at h
  split at h
  · simp at h
  · split at h
    · simp at h
    · split at h
      · split at h
        · simp at h
        · split at h
          · simp at h
          next v st₂ rest₂ heq =>
            have hle := read_blocks_eq_rest_le heq
            simp only [FieldResult.ok.injEq] at h
            obtain ⟨-, -, hr⟩ := h
            subst hr
            simp only [List.length_drop] at hle
            omega
      · simp only [FieldResult.ok.injEq] at h
        obtain ⟨-, -, hr⟩ := h
        subst hr
        simp only [List.length_drop]
        omega

/-- The error taxonomy of the program.  `versionError`, `badPassword` and
`formatError` are the raised `VaultVersionError`, `BadPasswordError` and
`VaultFormatError` exceptions (`vault.py` lines 54-61; `VaultVersionError`
is a subclass of `VaultFormatError` and all three are `RuntimeError`s).
`exited` is `sys.exit` (a `SystemExit`, not a `RuntimeError`).
`assertError` is a failed `assert`; `packError` is a `struct.error` from
packing an out-of-range value; neither is a `RuntimeError`. -/
inductive VaultError where
  | versionError
  | badPassword
  | formatError
  | exited (code : Nat)
  | assertError
  | packError
deriving DecidableEq

/-- The state of a `Vault` object (`vault.py` lines 40-52), after the
boilerplate fields have been populated. -/
structure Vault where
  f_tag : Bytes
  f_salt : Bytes
  f_iter : Nat
  f_sha_ps : Bytes
  f_b1 : Bytes
  f_b2 : Bytes
  f_b3 : Bytes
  f_b4 : Bytes
  f_iv : Bytes
  f_hmac : Bytes
  header : List (Nat × Field)
  records : List Record
deriving DecidableEq

/-- The external cryptographic collaborators, bundled: `hashlib.sha256`
digests, `TwofishECB` single-block decryption (used for key unwrap),
`TwofishCBC` construction and per-block encryption/decryption with a
chaining state of type `σ`, and `HMAC(key, message, sha256).digest()`
presented as a function of the key and the full accumulated message
(an `HMAC` object's successive `update` calls are modelled by
accumulating the concatenated message and taking the digest at the
end, which is exactly what HMAC computes). -/
structure Crypto (σ : Type) where
  sha256 : Bytes → Bytes
  ecbDecrypt : Bytes → Bytes → Bytes
  cbcInit : Bytes → Bytes → σ
  cbcDecrypt : σ → Bytes → Bytes × σ
  cbcEncrypt : σ → Bytes → Bytes × σ
  hmac : Bytes → Bytes → Bytes

/-- The header-reading loop of `Vault.read_from_file` (`vault.py` lines
286-293), with an explicit fuel argument so that the recursion is
structural (each loop iteration consumes at least 16 stream bytes, so a
fuel of `stream.length + 1` — supplied by `read_header` — is never
exhausted; the fuel-out value is arbitrary and unreachable).  Read fields
until `None` (break) or a type-0xff field (break), adding each other
field to the header dict and feeding its value to the HMAC checker.
Returns the header fields, the accumulated HMAC message, the cipher
state and the remaining stream. -/
def read_headerAux {σ : Type} (dec : σ → Bytes → Bytes × σ) :
    Nat → σ → Bytes → List (Nat × Field) → Bytes →
      Except VaultError (List (Nat × Field) × Bytes × σ × Bytes)
  | 0, _, _, _, _ => .error .formatError
  | fuel + 1, st, stream, fields, macBuf =>
    match read_field_tlv dec st stream with
    | .err _ => .error .formatError
    | .exit c => .error (.exited c)
    | .eof st₁ rest => .ok (fields, macBuf, st₁, rest)
    | .ok f st₁ rest =>
      if f.raw_type = 255 then .ok (fields, macBuf, st₁, rest)
      else read_headerAux dec fuel st₁ rest (addRawField fields f) (macBuf ++ f.raw_value)

/-- The header-reading loop (`vault.py` lines 286-293); see `read_headerAux`. -/
def read_header {σ : Type} (dec : σ → Bytes → Bytes × σ) (st : σ) (stream : Bytes)
    (fields : List (Nat × Field)) (macBuf : Bytes) :
    Except VaultError (List (Nat × Field) × Bytes × σ × Bytes) :=
  read_headerAux dec (stream.length + 1) st stream fields macBuf

/-- The record-reading loop of `Vault.read_from_file` (`vault.py` lines
297-307), fuelled like `read_headerAux`: read fields until `None` (break);
a type-0xff field appends the current record to the record list and starts
a fresh one; any other field feeds the HMAC checker and is added to the
current record. -/
def read_recordsAux {σ : Type} (dec : σ → Bytes → Bytes × σ) :
    Nat → σ → Bytes → List Record → Record → Bytes →
      Except VaultError (List Record × Bytes × σ × Bytes)
  | 0, _, _, _, _, _ => .error .formatError
  | fuel + 1, st, stream, records, current, macBuf =>
    match read_field_tlv dec st stream with
    | .err _ => .error .formatError
    | .exit c => .error (.exited c)
    | .eof st₁ rest => .ok (records, macBuf, st₁, rest)
    | .ok f st₁ rest =>
      if f.raw_type = 255 then
        read_recordsAux dec fuel st₁ rest (records ++ [current]) ⟨[]⟩ macBuf
      else
        read_recordsAux dec fuel st₁ rest records ⟨addRawField current.raw_fields f⟩
          (macBuf ++ f.raw_value)

/-- The record-reading loop (`vault.py` lines 297-307); see `read_recordsAux`. -/
def read_records {σ : Type} (dec : σ → Bytes → Bytes × σ) (st : σ) (stream : Bytes)
    (records : List Record) (current : Record) (macBuf : Bytes) :
    Except VaultError (List Record × Bytes × σ × Bytes) :=
  read_recordsAux dec (stream.length + 1) st stream records current macBuf

theorem read_headerAux_congr {σ : Type} {dec : σ → Bytes → Bytes × σ} :
    ∀ (n₁ n₂ : Nat) (st : σ) (stream : Bytes) (fields : List (Nat × Field))
      (macBuf : Bytes), stream.length < n₁ → stream.length < n₂ →
      read_headerAux dec n₁ st stream fields macBuf =
        read_headerAux dec n₂ st stream fields macBuf := by
  intro n₁
  induction n₁ with
  | zero => intro n₂ st stream _ _ h1 _; omega
  | succ m ih =>
    intro n₂ st stream fields macBuf h1 h2
    cases n₂ with
    | zero => omega
    | succ m₂ =>
      simp only [read_headerAux]
      cases hres : read_field_tlv dec st stream with
      | err msg => rfl
      | exit c => rfl
      | eof st₁ rest => rfl
      | ok f st₁ rest =>
        by_cases ht : f.raw_type = 255
        · simp [ht]
        · simp only [ht, if_false, ite_false]
          have hlt := read_field_tlv_ok_rest_lt hres
          exact ih m₂ st₁ rest _ _ (by omega) (by omega)

/-- The natural one-step unfolding of the header loop. -/
theorem read_header_eq {σ : Type} (dec : σ → Bytes → Bytes × σ) (st : σ)
    (stream : Bytes) (fields : List (Nat × Field)) (macBuf : Bytes) :
    read_header dec st stream fields macBuf =
      match read_field_tlv dec st stream with
      | .err _ => .error .formatError
      | .exit c => .error (.exited c)
      | .eof st₁ rest => .ok (fields, macBuf, st₁, rest)
      | .ok f st₁ rest =>
        if f.raw_type = 255 then .ok (fields, macBuf, st₁, rest)
        else read_header dec st₁ rest (addRawField fields f) (macBuf ++ f.raw_value) := by
  show read_headerAux dec (stream.length + 1) st stream fields macBuf = _
  simp only [read_headerAux]
  cases hres : read_field_tlv dec st stream with
  | err msg => rfl
  | exit c => rfl
  | eof st₁ rest => rfl
  | ok f st₁ rest =>
    by_cases ht : f.raw_type = 255
    · simp [ht]
    · simp only [ht, if_false, ite_false]
      exact read_headerAux_congr _ _ _ _ _ _ (read_field_tlv_ok_rest_lt hres)
        (Nat.lt_succ_self _)

theorem read_recordsAux_congr {σ : Type} {dec : σ → Bytes → Bytes × σ} :
    ∀ (n₁ n₂ : Nat) (st : σ) (stream : Bytes) (records : List Record)
      (current : Record) (macBuf : Bytes), stream.length < n₁ → stream.length < n₂ →
      read_recordsAux dec n₁ st stream records current macBuf =
        read_recordsAux dec n₂ st stream records current macBuf := by
  intro n₁
  induction n₁ with
  | zero => intro n₂ st stream _ _ _ h1 _; omega
  | succ m ih =>
    intro n₂ st stream records current macBuf h1 h2
    cases n₂ with
    | zero => omega
    | succ m₂ =>
      simp only [read_recordsAux]
      cases hres : read_field_tlv dec st stream with
      | err msg => rfl
      | exit c => rfl
      | eof st₁ rest => rfl
      | ok f st₁ rest =>
        have hlt := read_field_tlv_ok_rest_lt hres
        by_cases ht : f.raw_type = 255
        · simp only [ht, if_true, ite_true]
          exact ih m₂ st₁ rest _ _ _ (by omega) (by omega)
        · simp only [ht, if_false, ite_false]
          exact ih m₂ st₁ rest _ _ _ (by omega) (by omega)

/-- The natural one-step unfolding of the record loop. -/
theorem read_records_eq {σ : Type} (dec : σ → Bytes → Bytes × σ) (st : σ)
    (stream : Bytes) (records : List Record) (current : Record) (macBuf : Bytes) :
    read_records dec st stream records current macBuf =
      match read_field_tlv dec st stream with
      | .err _ => .error .formatError
      | .exit c => .error (.exited c)
      | .eof st₁ rest => .ok (records, macBuf, st₁, rest)
      | .ok f st₁ rest =>
        if f.raw_type = 255 then
          read_records dec st₁ rest (records ++ [current]) ⟨[]⟩ macBuf
        else
          read_records dec st₁ rest records ⟨addRawField current.raw_fields f⟩
            (macBuf ++ f.raw_value) := by
  show read_recordsAux dec (stream.length + 1) st stream records current macBuf = _
  simp only [read_recordsAux]
  cases hres : read_field_tlv dec st stream with
  | err msg => rfl
  | exit c => rfl
  | eof st₁ rest => rfl
  | ok f st₁ rest =>
    have hlt := read_field_tlv_ok_rest_lt hres
    by_cases ht : f.raw_type = 255
    · simp only [ht, if_true, ite_true]
      exact read_recordsAux_congr _ _ _ _ _ _ _ hlt (Nat.lt_succ_self _)
    · simp only [ht, if_false, ite_false]
      exact read_recordsAux_congr _ _ _ _ _ _ _ hlt (Nat.lt_succ_self _)

/-- `Vault.read_from_file` (`vault.py` lines 249-318), on a freshly
constructed `Vault` (the source mutates `self`; the model returns the
resulting vault).  The file is the byte list `stream`.  (For streams
shorter than the 44-byte tag/salt/iteration prefix Python's
`struct.unpack` would raise `struct.error`; the embedding's `le32`
totalises that corner with zero defaults, and no theorem below relies
on such streams.) -/
def read_from_file {σ : Type} (C : Crypto σ) (stream : Bytes) (password : Bytes) :
    Except VaultError Vault :=
  let f_tag := stream.take 4
  let s0 := stream.drop 4
  if f_tag ≠ pws3Tag then .error .versionError else
  let f_salt := s0.take 32
  let s1 := s0.drop 32
  let f_iter := le32 (s1.take 4)
  let s2 := s1.drop 4
  let stretched := stretch_password C.sha256 password f_salt f_iter
  let my_sha_ps := C.sha256 stretched
  let f_sha_ps := s2.take 32
  let s3 := s2.drop 32
  if f_sha_ps ≠ my_sha_ps then .error .badPassword else
  let f_b1 := s3.take 16
  let s4 := s3.drop 16
  let f_b2 := s4.take 16
  let s5 := s4.drop 16
  let f_b3 := s5.take 16
  let s6 := s5.drop 16
  let f_b4 := s6.take 16
  let s7 := s6.drop 16
  let key_k := C.ecbDecrypt stretched f_b1 ++ C.ecbDecrypt stretched f_b2
  let key_l := C.ecbDecrypt stretched f_b3 ++ C.ecbDecrypt stretched f_b4
  let f_iv := s7.take 16
  let s8 := s7.drop 16
  let st := C.cbcInit key_k f_iv
  match read_header C.cbcDecrypt st s8 [] [] with
  | .error e => .error e
  | .ok (hdr, macBuf, st₁, s9) =>
    match read_records C.cbcDecrypt st₁ s9 [] ⟨[]⟩ macBuf with
    | .error e => .error e
    | .ok (recs, macBuf₂, _, s10) =>
      let f_hmac := s10.take 32
      let my_hmac := C.hmac key_l macBuf₂
      if f_hmac ≠ my_hmac then .error .formatError
      else .ok ⟨f_tag, f_salt, f_iter, f_sha_ps, f_b1, f_b2, f_b3, f_b4, f_iv,
                f_hmac, hdr, recs⟩

/-- Split a byte string into its successive 16-byte pieces (the physical
cipher blocks `TwofishCBC.encrypt` processes), with a structural fuel
argument (each step consumes at least one byte, so `b.length` fuel —
supplied by `chunks16` — always suffices; the fuel-out value is
unreachable). -/
def chunks16Aux : Nat → Bytes → List Bytes
  | _, [] => []
  | 0, b => [b]
  | n + 1, b => b.take 16 :: chunks16Aux n (b.drop 16)

/-- Split a byte string into its successive 16-byte pieces. -/
def chunks16 (b : Bytes) : List Bytes := chunks16Aux b.length b

theorem chunks16Aux_congr :
    ∀ (n₁ n₂ : Nat) (b : Bytes), b.length ≤ n₁ → b.length ≤ n₂ →
      chunks16Aux n₁ b = chunks16Aux n₂ b := by
  intro n₁
  induction n₁ with
  | zero =>
    intro n₂ b h1 _
    have hb : b = [] := List.eq_nil_of_length_eq_zero (by omega)
    subst hb
    cases n₂ <;> rfl
  | succ m ih =>
    intro n₂ b h1 h2
    rcases b with _ | ⟨x, xs⟩
    · cases n₂ <;> rfl
    · cases n₂ with
      | zero => simp at h2
      | succ m₂ =>
        simp only [chunks16Aux]
        congr 1
        simp only [List.length_cons] at h1 h2
        refine ih m₂ _ ?_ ?_ <;> simp only [List.length_drop, List.length_cons] <;> omega

/-- The natural unfolding of `chunks16`. -/
theorem chunks16_eq (b : Bytes) :
    chunks16 b = if b = [] then [] else b.take 16 :: chunks16 (b.drop 16) := by
  rcases b with _ | ⟨x, xs⟩
  · rfl
  · show chunks16Aux (x :: xs).length (x :: xs) = _
    rw [if_neg (List.cons_ne_nil x xs)]
    simp only [List.length_cons, chunks16Aux]
    congr 1
    show chunks16Aux xs.length ((x :: xs).drop 16) =
      chunks16Aux ((x :: xs).drop 16).length ((x :: xs).drop 16)
    refine chunks16Aux_congr _ _ _ ?_ (le_refl _)
    simp only [List.length_drop, List.length_cons]
    omega

/-- Chained encryption of a list of 16-byte blocks, threading the CBC
state; returns the ciphertext blocks in order. -/
def cbcEncryptBlocks {σ : Type} (enc : σ → Bytes → Bytes × σ) (st : σ) :
    List Bytes → List Bytes × σ
  | [] => ([], st)
  | c :: cs =>
    let r := enc st c
    let rest := cbcEncryptBlocks enc r.2 cs
    (r.1 :: rest.1, rest.2)

/-- Chained decryption of a list of 16-byte blocks, threading the CBC
state; returns the plaintext blocks in order. -/
def cbcDecryptBlocks {σ : Type} (dec : σ → Bytes → Bytes × σ) (st : σ) :
    List Bytes → List Bytes × σ
  | [] => ([], st)
  | c :: cs =>
    let r := dec st c
    let rest := cbcDecryptBlocks dec r.2 cs
    (r.1 :: rest.1, rest.2)

/-- The `end_of_record` sentinel field `Vault.Field(0xff, 0, "")`
(`vault.py` line 355). -/
def end_of_record : Field := ⟨255, 0, []⟩

/-- `Vault._write_field_tlv` (`vault.py` lines 225-247): `None` writes the
unencrypted end-of-file marker; otherwise (after the
`assert len(field.raw_value) == field.raw_len`, and with `struct.pack`
requiring `raw_len < 2^32` and `raw_type < 2^8`) the block
`length(4, LE) ‖ type(1) ‖ value` is padded to a 16-byte boundary with
`_urandom` bytes and encrypted with the chained cipher.  The randomness
source is the parameter `urand` (state type `ρ`).  Returns the bytes
written, the cipher state and the randomness state. -/
def write_field_tlv {σ ρ : Type} (enc : σ → Bytes → Bytes × σ)
    (urand : ρ → Nat → Bytes × ρ) (st : σ) (rng : ρ) (field : Option Field) :
    Except VaultError (Bytes × σ × ρ) :=
  match field with
  | none => .ok (pws3EofMarker, st, rng)
  | some f =>
    if f.raw_value.length ≠ f.raw_len then .error .assertError
    else if 4294967296 ≤ f.raw_len ∨ 256 ≤ f.raw_type then .error .packError
    else
      let data := le32pack f.raw_len ++ [f.raw_type] ++ f.raw_value
      let padded :=
        if data.length % 16 ≠ 0 then data ++ (urand rng (16 - data.length % 16)).1
        else data
      let rng₁ :=
        if data.length % 16 ≠ 0 then (urand rng (16 - data.length % 16)).2
        else rng
      let r := cbcEncryptBlocks enc st (chunks16 padded)
      .ok (r.1.flatten, r.2, rng₁)

/-- The per-field-list write loop shared by the header and record passes
(`vault.py` lines 357-359 and 364-366): write each field and feed its value
to the HMAC checker.  Returns one ciphertext byte string per field, plus
the final cipher state, randomness state and accumulated HMAC message. -/
def write_field_list {σ ρ : Type} (enc : σ → Bytes → Bytes × σ)
    (urand : ρ → Nat → Bytes × ρ) :
    List Field → σ → ρ → Bytes → Except VaultError (List Bytes × σ × ρ × Bytes)
  | [], st, rng, buf => .ok ([], st, rng, buf)
  | f :: fs, st, rng, buf =>
    match write_field_tlv enc urand st rng (some f) with
    | .error e => .error e
    | .ok (ct, st₁, rng₁) =>
      match write_field_list enc urand fs st₁ rng₁ (buf ++ f.raw_value) with
      | .error e => .error e
      | .ok (cts, st₂, rng₂, buf₂) => .ok (ct :: cts, st₂, rng₂, buf₂)

/-- The record write loop of `Vault.write_to_file` (`vault.py` lines
363-368): for each record write its fields (in dict order, feeding the
HMAC checker), then the `end_of_record` sentinel (feeding the sentinel's
empty value to the HMAC checker). -/
def write_records {σ ρ : Type} (enc : σ → Bytes → Bytes × σ)
    (urand : ρ → Nat → Bytes × ρ) :
    List Record → σ → ρ → Bytes → Except VaultError (List Bytes × σ × ρ × Bytes)
  | [], st, rng, buf => .ok ([], st, rng, buf)
  | r :: rs, st, rng, buf =>
    match write_field_list enc urand (r.raw_fields.map Prod.snd) st rng buf with
    | .error e => .error e
    | .ok (cts, st₁, rng₁, buf₁) =>
      match write_field_tlv enc urand st₁ rng₁ (some end_of_record) with
      | .error e => .error e
      | .ok (ctS, st₂, rng₂) =>
        match write_records enc urand rs st₂ rng₂ (buf₁ ++ end_of_record.raw_value) with
        | .error e => .error e
        | .ok (ctsR, st₃, rng₃, buf₃) => .ok (cts ++ ctS :: ctsR, st₃, rng₃, buf₃)

/-- The serialisation pass of `Vault.write_to_file` (`vault.py` lines
331-373): the sequence of byte strings passed to `filehandle.write`, in
order — tag, salt, packed iteration count, recomputed password-check
hash, B1-B4, IV, the header fields, the end-of-header sentinel, each
record's fields followed by its sentinel, the end-of-file marker, and
the HMAC digest over every value fed to the checker. -/
def write_chunks {σ ρ : Type} (C : Crypto σ) (urand : ρ → Nat → Bytes × ρ)
    (v : Vault) (password : Bytes) (rng : ρ) : Except VaultError (List Bytes) :=
  if 4294967296 ≤ v.f_iter then .error .packError else
  let stretched := stretch_password C.sha256 password v.f_salt v.f_iter
  let sha_ps := C.sha256 stretched
  let key_k := C.ecbDecrypt stretched v.f_b1 ++ C.ecbDecrypt stretched v.f_b2
  let key_l := C.ecbDecrypt stretched v.f_b3 ++ C.ecbDecrypt stretched v.f_b4
  let st := C.cbcInit key_k v.f_iv
  match write_field_list C.cbcEncrypt urand (v.header.map Prod.snd) st rng [] with
  | .error e => .error e
  | .ok (hcts, st₁, rng₁, buf₁) =>
    match write_field_tlv C.cbcEncrypt urand st₁ rng₁ (some end_of_record) with
    | .error e => .error e
    | .ok (hsent, st₂, rng₂) =>
      match write_records C.cbcEncrypt urand v.records st₂ rng₂
          (buf₁ ++ end_of_record.raw_value) with
      | .error e => .error e
      | .ok (rcts, st₃, rng₃, buf₃) =>
        match write_field_tlv C.cbcEncrypt urand st₃ rng₃ none with
        | .error e => .error e
        | .ok (mrk, _, _) =>
          .ok ([v.f_tag, v.f_salt, le32pack v.f_iter, sha_ps, v.f_b1, v.f_b2,
                v.f_b3, v.f_b4, v.f_iv] ++ hcts ++ [hsent] ++ rcts ++
               [mrk, C.hmac key_l buf₃])

/-- `Vault.write_to_file` (`vault.py` lines 320-385), abstracted from the
filesystem (see `write_trace` for the filesystem effects): serialise
into the temporary file, close it, and read it back with the same
password as self-verification.  A `RuntimeError` from the read-back
(version, password or format error) is caught, the temporary file is
removed and `VaultFormatError` is raised; a `sys.exit` in the read-back
(`SystemExit`) is not a `RuntimeError` and propagates, terminating the
process.  On success the destination is replaced and the result is the
file content. -/
def write_to_file {σ ρ : Type} (C : Crypto σ) (urand : ρ → Nat → Bytes × ρ)
    (v : Vault) (password : Bytes) (rng : ρ) : Except VaultError Bytes :=
  match write_chunks C urand v password rng with
  | .error e => .error e
  | .ok chunks =>
    let content := chunks.flatten
    match read_from_file C content password with
    | .error (.exited c) => .error (.exited c)
    | .error _ => .error .formatError
    | .ok _ => .ok content

/-- The filesystem operations `Vault.write_to_file` performs, at the
granularity relevant to crash safety: writes to the temporary file,
`os.remove(tmpfilename)`, `os.remove(filename)` and
`os.rename(tmpfilename, filename)` (`vault.py` lines 326-385). -/
inductive FsOp where
  | createTemp
  | writeTemp (b : Bytes)
  | removeTemp
  | removeDest
  | renameTempToDest
deriving DecidableEq

/-- The two files `write_to_file` touches: the destination `filename`
and the temporary file next to it.  `none` models absence. -/
structure FileSystem where
  dest : Option Bytes
  temp : Option Bytes
deriving DecidableEq

def applyOp (fs : FileSystem) : FsOp → FileSystem
  | .createTemp => { fs with temp := some [] }
  | .writeTemp b => { fs with temp := some ((fs.temp.getD []) ++ b) }
  | .removeTemp => { fs with temp := none }
  | .removeDest => { fs with dest := none }
  | .renameTempToDest => ⟨fs.temp, none⟩

/-- Running a prefix of the operation trace models the program crashing
(or being killed) at that point: the operations before the crash happened,
the rest did not. -/
def applyOps (fs : FileSystem) (ops : List FsOp) : FileSystem :=
  ops.foldl applyOp fs

/-- The full operation trace of `Vault.write_to_file` (`vault.py` lines
320-385): one `writeTemp` per `filehandle.write` call, then — depending
on the self-verification read-back — `removeTemp` (caught
`RuntimeError`, before `VaultFormatError` is raised), nothing (a
`sys.exit` in the read-back terminates the process with the temporary
file left behind), or `os.remove(filename)` followed by
`os.rename(tmpfilename, filename)`.  (When the serialisation itself
fails — an impossible-length assertion or a `struct.error` — the trace
is cut at the failing write; the theorems below quantify over crash
prefixes, which subsumes those cuts.) -/
def write_trace {σ ρ : Type} (C : Crypto σ) (urand : ρ → Nat → Bytes × ρ)
    (v : Vault) (password : Bytes) (rng : ρ) : List FsOp :=
  match write_chunks C urand v password rng with
  | .error _ => []
  | .ok chunks =>
    .createTemp :: chunks.map FsOp.writeTemp ++
      match read_from_file C chunks.flatten password with
      | .error (.exited _) => []
      | .error _ => [.removeTemp]
      | .ok _ => [.removeDest, .renameTempToDest]

/-! ### Concrete instantiations of the external collaborators

Small executable instances of the cipher/hash/randomness parameters, used
to evaluate the theorems below at concrete inputs.  `toyEnc`/`toyDec` shift
every byte up/down by 256, a stateless invertible block map whose outputs
(entries ≥ 256) can never collide with the literal end-of-file marker. -/

/-- A stateless identity "cipher", used for concrete evaluations of the
field codec. -/
def decId : Unit → Bytes → Bytes × Unit := fun _ b => (b, ())

def toySha : Bytes → Bytes := fun b => List.replicate 32 (b.length % 256)

def toyEcb : Bytes → Bytes → Bytes := fun _ b => b

def toyInit : Bytes → Bytes → Unit := fun _ _ => ()

def toyEnc : Unit → Bytes → Bytes × Unit := fun _ b => (b.map (fun x => x + 256), ())

def toyDec : Unit → Bytes → Bytes × Unit := fun _ b => (b.map (fun x => x - 256), ())

def toyHmac : Bytes → Bytes → Bytes :=
  fun k m => List.replicate 32 ((k.length + m.length) % 256)

def toyC : Crypto Unit := ⟨toySha, toyEcb, toyInit, toyDec, toyEnc, toyHmac⟩

def toyUrand : Unit → Nat → Bytes × Unit := fun _ n => (List.replicate n 0, ())

def toyV : Vault :=
  ⟨pws3Tag, List.replicate 32 0, 1, [], List.replicate 16 0, List.replicate 16 0,
   List.replicate 16 0, List.replicate 16 0, List.replicate 16 0, [],
   [(1, ⟨1, 2, [10, 20]⟩)], [⟨[(2, ⟨2, 1, [65]⟩), (3, ⟨3, 0, []⟩)]⟩]⟩

def toyPw : Bytes := [112]

theorem toyEnc_length (st : Unit) (b : Bytes) (h : b.length = 16) :
    ((toyEnc st b).1).length = 16 := by simp [toyEnc, h]

theorem toyEnc_ne_marker (st : Unit) (b : Bytes) (h : b.length = 16) :
    (toyEnc st b).1 ≠ pws3EofMarker := by
  rcases b with _ | ⟨x, b⟩
  · simp at h
  · intro hc
    simp only [toyEnc, List.map_cons, pws3EofMarker] at hc
    have := List.head_eq_of_cons_eq hc
    omega

theorem toyDec_toyEnc (st : Unit) (b : Bytes) (h : b.length = 16) :
    toyDec st (toyEnc st b).1 = (b, (toyEnc st b).2) := by
  simp only [toyEnc, toyDec, List.map_map]
  congr 1
  rw [List.map_congr_left, List.map_id]
  intro x _
  simp only [Function.comp_apply, Nat.add_sub_cancel, id_eq]

theorem toySha_length (b : Bytes) : (toySha b).length = 32 := by simp [toySha]

theorem toyHmac_length (k m : Bytes) : (toyHmac k m).length = 32 := by simp [toyHmac]

theorem toyUrand_length (r : Unit) (n : Nat) : ((toyUrand r n).1).length = n := by
  simp [toyUrand]

/-! ### C5: password stretching -/

/-- **C5.**  For every hash function, password, salt and iteration count n,
`_stretch_password` is deterministic (it is a pure function of its
arguments) and performs exactly n + 1 hash invocations: the first digest is
`hash(password ++ salt)` and each of the n loop rounds applies `hash` once
more to the previous digest.  Stated as: the result equals the n-fold
iterate of `hash` applied to `hash (password ++ salt)`, and the
invocation-counting instrumentation returns the same digest paired with
the count n + 1. -/
theorem C5_stretch_iterations (hash : Bytes → Bytes) (password salt : Bytes)
    (n : Nat) :
    stretch_password hash password salt n = Nat.iterate hash n (hash (password ++ salt)) ∧
    stretch_password_traced hash password salt n =
      (stretch_password hash password salt n, n + 1) := by
  induction n with
  | zero => simp [stretch_password, stretch_password_traced]
  | succ n ih =>
    obtain ⟨ih1, ih2⟩ := ih
    constructor
    · simp only [stretch_password, List.range_succ, List.foldl_append, List.foldl_cons,
        List.foldl_nil] at *
      rw [ih1, Function.iterate_succ_apply']
    · simp only [stretch_password, stretch_password_traced, List.range_succ,
        List.foldl_append, List.foldl_cons, List.foldl_nil] at *
      rw [ih2]

/-! ### C2: oversized declared field length -/

/-- **C2 counterexample.**  A field block whose decrypted declared length is
2000 (> 1024): `_read_field_tlv` does not raise `VaultFormatError` to the
caller — it prints "Emergency Exit" and terminates the process via
`sys.exit(1)` (`vault.py` lines 205-207), modelled as the `.exit 1`
outcome, which is not the raised-error outcome. -/
theorem C2_counterexample :
    read_field_tlv decId () (le32pack 2000 ++ [7] ++ List.replicate 11 0) = .exit 1 ∧
    (read_field_tlv decId () (le32pack 2000 ++ [7] ++ List.replicate 11 0)).isErr = false := by
  constructor
  · decide
  · decide

/-- **C2 (amended).**  For every 16-byte first block that is not the
end-of-file marker and whose decrypted 4-byte little-endian length exceeds
1024, `_read_field_tlv` terminates the process with exit status 1
(`sys.exit(1)`, after printing "Emergency Exit"); the decision depends only
on that first block — whatever follows it in the stream, nothing further
is read or allocated — but the failure is a process exit, not a
`VaultFormatError` raised to the caller. -/
theorem C2_oversized_exit {σ : Type} (dec : σ → Bytes → Bytes × σ) (st : σ)
    (b : Bytes) (hb : b.length = 16) (hnm : b ≠ pws3EofMarker)
    (hlen : 1024 < le32 (((dec st b).1).take 4)) :
    ∀ rest : Bytes, read_field_tlv dec st (b ++ rest) = .exit 1 := by
  intro rest
  have hbne : b ≠ [] := by
    intro h0
    rw [h0] at hb
    simp at hb
  have h11 : 11 < le32 (((dec st b).1).take 4) := by omega
  simp only [read_field_tlv, List.take_left' hb, List.drop_left' hb]
  rw [if_neg hbne, if_neg hnm, if_pos h11, if_pos hlen]

/-- Witness for C2's amended theorem at a concrete input. -/
theorem C2_oversized_exit_witness :
    read_field_tlv decId () ((le32pack 2000 ++ [7] ++ List.replicate 11 0) ++ [9, 9]) =
      .exit 1 :=
  C2_oversized_exit decId () (le32pack 2000 ++ [7] ++ List.replicate 11 0)
    (by decide) (by decide) (by decide) [9, 9]

/-! ### C8: the end-of-file marker check -/

/-- **C8 counterexample.**  `_read_field_tlv` does not return `None` only
when the raw block equals the end-of-file marker: on this 16-byte stream the
first (and only) raw block differs from the marker, yet the declared length
20 requires a continuation block, the stream is exhausted, and the
`if not data: return None` in the continuation loop (`vault.py` lines
210-211) returns `None` all the same. -/
theorem C8_counterexample :
    read_field_tlv decId () (le32pack 20 ++ [7] ++ List.replicate 11 0) = .eof () [] ∧
    (le32pack 20 ++ [7] ++ List.replicate 11 0) ≠ pws3EofMarker := by
  constructor
  · decide
  · decide

/-- A stream beginning with the end-of-file marker reads as `None`, for
any cipher, consuming the 16 marker bytes. -/
theorem read_field_tlv_marker {σ : Type} (dec : σ → Bytes → Bytes × σ)
    (st : σ) (rest : Bytes) :
    read_field_tlv dec st (pws3EofMarker ++ rest) = .eof st rest := by
  have hlen : pws3EofMarker.length = 16 := by decide
  have hne : pws3EofMarker ≠ [] := by decide
  simp only [read_field_tlv, List.take_left' hlen, List.drop_left' hlen]
  rw [if_neg hne]
  simp

/-- **C8 (amended).**  The comparison against the literal end-of-file
marker is performed on the first raw 16-byte block of a field, before any
decryption — on a stream beginning with the marker, `_read_field_tlv`
returns `None` (the `.eof` outcome) for every cipher whatsoever, consuming
exactly those 16 bytes.  (The converse direction of the original claim
fails: `None` is also returned when the stream is exhausted while reading
continuation blocks, see the counterexample.) -/
theorem C8_marker_before_decryption {σ : Type} (dec : σ → Bytes → Bytes × σ)
    (st : σ) (rest : Bytes) :
    read_field_tlv dec st (pws3EofMarker ++ rest) = .eof st rest :=
  read_field_tlv_marker dec st rest

/-! ### Block-level lemmas for the field codec -/

theorem chunks16_nil : chunks16 [] = [] := rfl

theorem chunks16_cons16 {b : Bytes} (hb : b.length = 16) (y : Bytes) :
    chunks16 (b ++ y) = b :: chunks16 y := by
  have hne : b ++ y ≠ [] := by
    intro h
    have := congrArg List.length h
    simp [hb] at this
  rw [chunks16_eq, if_neg hne, List.take_left' hb, List.drop_left' hb]

theorem chunks16_all16 :
    ∀ (n : Nat) (b : Bytes), b.length = 16 * n →
      (chunks16 b).length = n ∧ ∀ c ∈ chunks16 b, c.length = 16 := by
  intro n
  induction n with
  | zero =>
    intro b hb
    have hb0 : b = [] := List.eq_nil_of_length_eq_zero (by omega)
    subst hb0
    simp [chunks16_nil]
  | succ n ih =>
    intro b hb
    have h16 : (b.take 16).length = 16 := by
      simp only [List.length_take]
      omega
    have hbdec : b = b.take 16 ++ b.drop 16 := (List.take_append_drop 16 b).symm
    rw [hbdec, chunks16_cons16 h16]
    have hdrop : (b.drop 16).length = 16 * n := by
      simp only [List.length_drop]
      omega
    obtain ⟨h1, h2⟩ := ih (b.drop 16) hdrop
    refine ⟨by simp [h1], ?_⟩
    intro c hc
    rcases List.mem_cons.mp hc with h | h
    · subst h; exact h16
    · exact h2 c h

theorem cbcDecryptBlocks_flatten_length {σ : Type} {dec : σ → Bytes → Bytes × σ}
    (hdec16 : ∀ (s : σ) (b : Bytes), b.length = 16 → ((dec s b).1).length = 16) :
    ∀ (cs : List Bytes) (st : σ), (∀ c ∈ cs, c.length = 16) →
      ((cbcDecryptBlocks dec st cs).1).flatten.length = 16 * cs.length := by
  intro cs
  induction cs with
  | nil => intro st _; simp [cbcDecryptBlocks]
  | cons c cs ih =>
    intro st hall
    simp only [cbcDecryptBlocks, List.flatten_cons, List.length_append, List.length_cons]
    rw [ih _ (fun x hx => hall x (List.mem_cons_of_mem c hx)),
      hdec16 st c (hall c (List.mem_cons_self c cs))]
    ring

/-- Completing `(raw_len+4)//16` continuation reads on a sufficiently long
stream: the accumulated plaintext is the chained decryption of the first
`16*n` stream bytes, block by block, and exactly `16*n` bytes are consumed. -/
theorem read_blocks_complete {σ : Type} {dec : σ → Bytes → Bytes × σ} :
    ∀ (n : Nat) (st : σ) (s acc : Bytes), 16 * n ≤ s.length →
      read_blocks dec n st s acc =
        (some (acc ++ (cbcDecryptBlocks dec st (chunks16 (s.take (16 * n)))).1.flatten),
         (cbcDecryptBlocks dec st (chunks16 (s.take (16 * n)))).2,
         s.drop (16 * n)) := by
  intro n
  induction n with
  | zero =>
    intro st s acc h
    simp [read_blocks, chunks16_nil, cbcDecryptBlocks]
  | succ n ih =>
    intro st s acc h
    have h16 : (s.take 16).length = 16 := by
      simp only [List.length_take]
      omega
    have hne : s.take 16 ≠ [] := by
      intro hx
      rw [hx] at h16
      simp at h16
    simp only [read_blocks, hne, if_false, ite_false]
    rw [ih (dec st (s.take 16)).2 (s.drop 16) _ (by simp only [List.length_drop]; omega)]
    have harith : 16 * (n + 1) = 16 + 16 * n := by ring
    have hsplit : s.take (16 * (n + 1)) = s.take 16 ++ (s.drop 16).take (16 * n) := by
      rw [harith, List.take_add]
    rw [hsplit, chunks16_cons16 h16]
    simp only [cbcDecryptBlocks, List.flatten_cons, List.append_assoc, List.drop_drop,
      Prod.mk.injEq]
    refine ⟨trivial, trivial, ?_⟩
    congr 1
    omega

/-! ### C7: continuation-block reads for 11 < length ≤ 1024 -/

/-- **C7.**  For every field block whose decrypted declared length `L`
satisfies `11 < L ≤ 1024` (and which is not the end-of-file marker),
`_read_field_tlv` reads and decrypts exactly `(L + 4) / 16` additional
16-byte blocks (the remaining stream afterwards is
`stream.drop (16 + 16 * ((L + 4) / 16))`), appends their plaintext to the
11 bytes of value from the first block, truncates the result to exactly
`L` bytes, and returns a `Field` with `raw_len = L` whose value has length
exactly `L`. -/
theorem C7_continuation_blocks {σ : Type} (dec : σ → Bytes → Bytes × σ) (st : σ)
    (stream : Bytes) (L : Nat)
    (hdec16 : ∀ (s : σ) (b : Bytes), b.length = 16 → ((dec s b).1).length = 16)
    (hnm : stream.take 16 ≠ pws3EofMarker)
    (hL : le32 (((dec st (stream.take 16)).1).take 4) = L)
    (h11 : 11 < L) (h1024 : L ≤ 1024)
    (hstream : 16 + 16 * ((L + 4) / 16) ≤ stream.length) :
    read_field_tlv dec st stream =
      .ok ⟨((dec st (stream.take 16)).1).getD 4 0, L,
           (((dec st (stream.take 16)).1).drop 5 ++
             (cbcDecryptBlocks dec (dec st (stream.take 16)).2
               (chunks16 ((stream.drop 16).take (16 * ((L + 4) / 16))))).1.flatten).take L⟩
        (cbcDecryptBlocks dec (dec st (stream.take 16)).2
          (chunks16 ((stream.drop 16).take (16 * ((L + 4) / 16))))).2
        (stream.drop (16 + 16 * ((L + 4) / 16))) ∧
    ((((dec st (stream.take 16)).1).drop 5 ++
       (cbcDecryptBlocks dec (dec st (stream.take 16)).2
         (chunks16 ((stream.drop 16).take (16 * ((L + 4) / 16))))).1.flatten).take L).length
      = L := by
  have h16 : (stream.take 16).length = 16 := by
    simp only [List.length_take]
    omega
  have hne : stream.take 16 ≠ [] := by
    intro hx
    rw [hx] at h16
    simp at h16
  have hq : 16 * ((L + 4) / 16) ≤ (stream.drop 16).length := by
    simp only [List.length_drop]
    omega
  have hqlen : ((stream.drop 16).take (16 * ((L + 4) / 16))).length =
      16 * ((L + 4) / 16) := by
    simp only [List.length_take, List.length_drop]
    omega
  obtain ⟨hcount, hall⟩ := chunks16_all16 ((L + 4) / 16) _ hqlen
  have hflat := cbcDecryptBlocks_flatten_length hdec16 _ (dec st (stream.take 16)).2 hall
  rw [hcount] at hflat
  have hptlen : ((dec st (stream.take 16)).1).length = 16 := hdec16 st _ h16
  constructor
  · simp only [read_field_tlv, hne, if_false, ite_false, hnm, hL]
    rw [if_pos h11, if_neg (by omega)]
    rw [read_blocks_complete ((L + 4) / 16) (dec st (stream.take 16)).2
      (stream.drop 16) (((dec st (stream.take 16)).1).drop 5) hq]
    simp only [List.drop_drop]
  · rw [List.length_take, List.length_append, hflat, List.length_drop, hptlen]
    have hdivge : L ≤ 11 + 16 * ((L + 4) / 16) := by omega
    omega

/-- Witness for C7 at a concrete input: declared length 20 needs one
continuation block; the value is truncated to exactly 20 bytes. -/
theorem C7_continuation_blocks_witness :
    read_field_tlv decId ()
        (le32pack 20 ++ [7] ++ List.replicate 11 1 ++ List.replicate 16 2) =
      .ok ⟨7, 20, List.replicate 11 1 ++ List.replicate 9 2⟩ () [] := by
  have h := C7_continuation_blocks decId ()
    (le32pack 20 ++ [7] ++ List.replicate 11 1 ++ List.replicate 16 2) 20
    (by intro s b hb; exact hb) (by decide) (by decide) (by decide) (by decide)
    (by decide)
  rw [h.1]
  decide

/-! ### Write/read correspondence for the field codec -/

theorem chunks16Aux_flatten :
    ∀ (n : Nat) (b : Bytes), b.length ≤ n → (chunks16Aux n b).flatten = b := by
  intro n
  induction n with
  | zero =>
    intro b hb
    have : b = [] := List.eq_nil_of_length_eq_zero (by omega)
    subst this
    rfl
  | succ m ih =>
    intro b hb
    rcases b with _ | ⟨x, xs⟩
    · rfl
    · simp only [chunks16Aux, List.flatten_cons]
      have hdl : ((x :: xs).drop 16).length ≤ m := by
        simp only [List.length_drop, List.length_cons]
        simp only [List.length_cons] at hb
        omega
      rw [ih ((x :: xs).drop 16) hdl]
      exact List.take_append_drop 16 (x :: xs)

theorem chunks16_flatten (b : Bytes) : (chunks16 b).flatten = b :=
  chunks16Aux_flatten b.length b (le_refl _)

/-- Taking `16 * r` bytes of a flattened list of 16-byte blocks is taking
its first `r` blocks. -/
theorem flatten_take16 :
    ∀ (bs : List Bytes) (r : Nat), (∀ b ∈ bs, b.length = 16) →
      bs.flatten.take (16 * r) = (bs.take r).flatten := by
  intro bs
  induction bs with
  | nil => intro r _; simp
  | cons b bs ih =>
    intro r hall
    cases r with
    | zero => simp
    | succ r =>
      have hb : b.length = 16 := hall b (List.mem_cons_self b bs)
      have harith : 16 * (r + 1) = 16 + 16 * r := by ring
      rw [List.take_succ_cons, List.flatten_cons, List.flatten_cons, harith,
        List.take_add, List.take_left' hb, List.drop_left' hb,
        ih r (fun x hx => hall x (List.mem_cons_of_mem b hx))]

theorem getD_take16 (l : Bytes) (h : 4 < 16) : (l.take 16).getD 4 0 = l.getD 4 0 := by
  simp [List.getD, List.get?_take h]

/-- The ciphertext blocks of a chained encryption: as many blocks as the
plaintext, each 16 bytes and never the end-of-file marker. -/
theorem cbcEncryptBlocks_spec {σ : Type} {enc : σ → Bytes → Bytes × σ}
    (Hlen : ∀ (s : σ) (b : Bytes), b.length = 16 → ((enc s b).1).length = 16)
    (Hnm : ∀ (s : σ) (b : Bytes), b.length = 16 → (enc s b).1 ≠ pws3EofMarker) :
    ∀ (cs : List Bytes) (st : σ), (∀ c ∈ cs, c.length = 16) →
      (cbcEncryptBlocks enc st cs).1.length = cs.length ∧
      (cbcEncryptBlocks enc st cs).1.flatten.length = 16 * cs.length ∧
      ∀ b ∈ (cbcEncryptBlocks enc st cs).1, b.length = 16 ∧ b ≠ pws3EofMarker := by
  intro cs
  induction cs with
  | nil => intro st _; simp [cbcEncryptBlocks]
  | cons c cs ih =>
    intro st hall
    have hc : c.length = 16 := hall c (List.mem_cons_self c cs)
    obtain ⟨ih1, ih2, ih3⟩ := ih (enc st c).2 (fun x hx => hall x (List.mem_cons_of_mem c hx))
    refine ⟨by simp [cbcEncryptBlocks, ih1], ?_, ?_⟩
    · simp only [cbcEncryptBlocks, List.flatten_cons, List.length_append, List.length_cons,
        ih2, Hlen st c hc]
      ring
    · intro b hb
      simp only [cbcEncryptBlocks, List.mem_cons] at hb
      rcases hb with hb | hb
      · subst hb
        exact ⟨Hlen st c hc, Hnm st c hc⟩
      · exact ih3 b hb

/-- Reading back `cs.length` continuation blocks over the ciphertext of
`cs` recovers `cs` and the encryption-side final state. -/
theorem read_blocks_of_enc {σ : Type} {enc dec : σ → Bytes → Bytes × σ}
    (Hlen : ∀ (s : σ) (b : Bytes), b.length = 16 → ((enc s b).1).length = 16)
    (Hinv : ∀ (s : σ) (b : Bytes), b.length = 16 → dec s (enc s b).1 = (b, (enc s b).2)) :
    ∀ (cs : List Bytes) (st : σ) (acc rest : Bytes), (∀ c ∈ cs, c.length = 16) →
      read_blocks dec cs.length st ((cbcEncryptBlocks enc st cs).1.flatten ++ rest) acc =
        (some (acc ++ cs.flatten), (cbcEncryptBlocks enc st cs).2, rest) := by
  intro cs
  induction cs with
  | nil => intro st acc rest _; simp [read_blocks, cbcEncryptBlocks]
  | cons c cs ih =>
    intro st acc rest hall
    have hc : c.length = 16 := hall c (List.mem_cons_self c cs)
    have hct : ((enc st c).1).length = 16 := Hlen st c hc
    have hctne : (enc st c).1 ≠ [] := by
      intro hx
      rw [hx] at hct
      simp at hct
    simp only [cbcEncryptBlocks, List.flatten_cons, List.append_assoc, List.length_cons,
      read_blocks, List.take_left' hct, List.drop_left' hct]
    rw [if_neg hctne, Hinv st c hc]
    rw [ih (enc st c).2 (acc ++ c) rest (fun x hx => hall x (List.mem_cons_of_mem c hx))]
    simp [List.append_assoc]

/-- Reading more continuation blocks than the stream holds, over a stream
of exactly-16-byte blocks, runs out and returns the truncation outcome. -/
theorem read_blocks_truncated {σ : Type} {dec : σ → Bytes → Bytes × σ} :
    ∀ (cs : List Bytes) (n : Nat) (st : σ) (acc : Bytes),
      cs.length < n → (∀ c ∈ cs, c.length = 16) →
      ∃ st₂, read_blocks dec n st cs.flatten acc = (none, st₂, []) := by
  intro cs
  induction cs with
  | nil =>
    intro n st acc hn _
    cases n with
    | zero => omega
    | succ m => exact ⟨st, by simp [read_blocks]⟩
  | cons c cs ih =>
    intro n st acc hn hall
    have hc : c.length = 16 := hall c (List.mem_cons_self c cs)
    have hcne : c ≠ [] := by
      intro hx
      rw [hx] at hc
      simp at hc
    cases n with
    | zero => simp at hn
    | succ m =>
      simp only [List.flatten_cons, read_blocks, List.take_left' hc, List.drop_left' hc]
      rw [if_neg hcne]
      exact ih m _ _ (by simp only [List.length_cons] at hn; omega)
        (fun x hx => hall x (List.mem_cons_of_mem c hx))

theorem read_header_nil {σ : Type} (dec : σ → Bytes → Bytes × σ) (st : σ)
    (fields : List (Nat × Field)) (macBuf : Bytes) :
    read_header dec st [] fields macBuf = .error .formatError := by
  rw [read_header_eq]
  simp [read_field_tlv]

theorem read_records_nil {σ : Type} (dec : σ → Bytes → Bytes × σ) (st : σ)
    (records : List Record) (current : Record) (macBuf : Bytes) :
    read_records dec st [] records current macBuf = .error .formatError := by
  rw [read_records_eq]
  simp [read_field_tlv]

theorem read_header_step {σ : Type} {dec : σ → Bytes → Bytes × σ} {st : σ}
    {stream : Bytes} {f : Field} {st₁ : σ} {rest : Bytes}
    (hres : read_field_tlv dec st stream = .ok f st₁ rest) (ht : f.raw_type ≠ 255)
    (fields : List (Nat × Field)) (macBuf : Bytes) :
    read_header dec st stream fields macBuf =
      read_header dec st₁ rest (addRawField fields f) (macBuf ++ f.raw_value) := by
  rw [read_header_eq, hres]
  simp [ht]

theorem read_header_sentinel_step {σ : Type} {dec : σ → Bytes → Bytes × σ} {st : σ}
    {stream : Bytes} {f : Field} {st₁ : σ} {rest : Bytes}
    (hres : read_field_tlv dec st stream = .ok f st₁ rest) (ht : f.raw_type = 255)
    (fields : List (Nat × Field)) (macBuf : Bytes) :
    read_header dec st stream fields macBuf = .ok (fields, macBuf, st₁, rest) := by
  rw [read_header_eq, hres]
  simp [ht]

theorem read_header_eof_step {σ : Type} {dec : σ → Bytes → Bytes × σ} {st : σ}
    {stream : Bytes} {st₁ : σ} {rest : Bytes}
    (hres : read_field_tlv dec st stream = .eof st₁ rest)
    (fields : List (Nat × Field)) (macBuf : Bytes) :
    read_header dec st stream fields macBuf = .ok (fields, macBuf, st₁, rest) := by
  rw [read_header_eq, hres]

theorem read_records_step {σ : Type} {dec : σ → Bytes → Bytes × σ} {st : σ}
    {stream : Bytes} {f : Field} {st₁ : σ} {rest : Bytes}
    (hres : read_field_tlv dec st stream = .ok f st₁ rest) (ht : f.raw_type ≠ 255)
    (records : List Record) (current : Record) (macBuf : Bytes) :
    read_records dec st stream records current macBuf =
      read_records dec st₁ rest records ⟨addRawField current.raw_fields f⟩
        (macBuf ++ f.raw_value) := by
  rw [read_records_eq, hres]
  simp [ht]

theorem read_records_sentinel_step {σ : Type} {dec : σ → Bytes → Bytes × σ} {st : σ}
    {stream : Bytes} {f : Field} {st₁ : σ} {rest : Bytes}
    (hres : read_field_tlv dec st stream = .ok f st₁ rest) (ht : f.raw_type = 255)
    (records : List Record) (current : Record) (macBuf : Bytes) :
    read_records dec st stream records current macBuf =
      read_records dec st₁ rest (records ++ [current]) ⟨[]⟩ macBuf := by
  rw [read_records_eq, hres]
  simp [ht]

theorem read_records_eof_step {σ : Type} {dec : σ → Bytes → Bytes × σ} {st : σ}
    {stream : Bytes} {st₁ : σ} {rest : Bytes}
    (hres : read_field_tlv dec st stream = .eof st₁ rest)
    (records : List Record) (current : Record) (macBuf : Bytes) :
    read_records dec st stream records current macBuf = .ok (records, macBuf, st₁, rest) := by
  rw [read_records_eq, hres]

theorem lookup_append_of_ne {α β : Type} [DecidableEq α] :
    ∀ (l₁ l₂ : List (α × β)) (k : α), l₁.lookup k = none →
      (l₁ ++ l₂).lookup k = l₂.lookup k := by
  intro l₁
  induction l₁ with
  | nil => intro l₂ k _; simp
  | cons p l₁ ih =>
    intro l₂ k hk
    simp only [List.lookup, List.cons_append] at *
    by_cases h : k = p.1
    · simp [h, beq_iff_eq] at hk
    · have hne : (k == p.1) = false := beq_false_of_ne h
      simp only [hne] at *
      exact ih l₂ k hk

/-- Rebuilding a well-formed field dict by `add_raw_field`-folding its own
fields, in order, reproduces it exactly: fresh keys are appended. -/
theorem foldl_addRawField_rebuild :
    ∀ (l acc : List (Nat × Field)),
      (∀ p ∈ l, p.1 = p.2.raw_type) → (l.map Prod.fst).Nodup →
      (∀ p ∈ l, acc.lookup p.1 = none) →
      (l.map Prod.snd).foldl addRawField acc = acc ++ l := by
  intro l
  induction l with
  | nil => intro acc _ _ _; simp
  | cons p l ih =>
    intro acc hkeys hnodup hfresh
    simp only [List.map_cons, List.foldl_cons]
    have hk : p.1 = p.2.raw_type := hkeys p (List.mem_cons_self p l)
    have hfresh1 : acc.lookup p.2.raw_type = none := by
      rw [← hk]
      exact hfresh p (List.mem_cons_self p l)
    have hadd : addRawField acc p.2 = acc ++ [(p.2.raw_type, p.2)] := by
      simp only [addRawField, hfresh1, Option.isSome_none, Bool.false_eq_true, if_false,
        ite_false]
    rw [hadd]
    have hp : (p.2.raw_type, p.2) = p := by
      rw [← hk]
    rw [hp]
    simp only [List.map_cons, List.nodup_cons] at hnodup
    rw [ih (acc ++ [p]) (fun q hq => hkeys q (List.mem_cons_of_mem p hq)) hnodup.2 ?_]
    · simp
    · intro q hq
      rw [lookup_append_of_ne acc [p] q.1 (hfresh q (List.mem_cons_of_mem p hq))]
      have hqne : q.1 ≠ p.1 := by
        intro hx
        exact hnodup.1 (hx ▸ List.mem_map_of_mem Prod.fst hq)
      simp only [List.lookup, beq_false_of_ne hqne]

theorem take_append_le {α : Type} (l₁ l₂ : List α) (n : Nat) (h : n ≤ l₁.length) :
    (l₁ ++ l₂).take n = l₁.take n := by
  rw [List.take_append_eq_append_take, Nat.sub_eq_zero_of_le h, List.take_zero,
    List.append_nil]

theorem drop_append_le {α : Type} (l₁ l₂ : List α) (n : Nat) (h : n ≤ l₁.length) :
    (l₁ ++ l₂).drop n = l₁.drop n ++ l₂ := by
  rw [List.drop_append_eq_append_drop, Nat.sub_eq_zero_of_le h, List.drop_zero]

theorem getD_append_lt (l₁ l₂ : List Nat) (n : Nat) (h : n < l₁.length) :
    (l₁ ++ l₂).getD n 0 = l₁.getD n 0 := by
  simp [List.getD, List.getElem?_append, h]

/-- The plaintext of one written field: `length(4, LE) ‖ type(1) ‖ value`,
padded to a 16-byte boundary. -/
def fieldPlain (f : Field) (pad : Bytes) : Bytes :=
  (le32pack f.raw_len ++ [f.raw_type] ++ f.raw_value) ++ pad

theorem fieldPlain_take4 (f : Field) (pad : Bytes) :
    (fieldPlain f pad).take 4 = le32pack f.raw_len := by
  have h4 : (4 : Nat) ≤ (le32pack f.raw_len).length := by
    simp only [le32pack, List.length_cons, List.length_nil]
    omega
  rw [fieldPlain, take_append_le _ _ 4
      (by simp only [le32pack, List.length_append, List.length_cons, List.length_nil]
          omega),
    List.append_assoc, take_append_le _ _ 4 h4,
    List.take_of_length_le
      (by simp only [le32pack, List.length_cons, List.length_nil]
          omega)]

theorem fieldPlain_getD4 (f : Field) (pad : Bytes) :
    (fieldPlain f pad).getD 4 0 = f.raw_type := by
  have h5 : (le32pack f.raw_len ++ [f.raw_type]).length = 5 := by
    simp [le32pack]
  rw [fieldPlain, getD_append_lt _ _ 4
      (by simp only [le32pack, List.length_append, List.length_cons, List.length_nil]
          omega),
    getD_append_lt _ _ 4 (by omega)]
  simp [le32pack, List.getD]

theorem fieldPlain_value (f : Field) (pad : Bytes)
    (hflen : f.raw_value.length = f.raw_len) :
    ((fieldPlain f pad).drop 5).take f.raw_len = f.raw_value := by
  have h5 : (le32pack f.raw_len ++ [f.raw_type]).length = 5 := by
    simp [le32pack]
  rw [fieldPlain, drop_append_le _ _ 5
      (by simp only [le32pack, List.length_append, List.length_cons, List.length_nil]
          omega),
    List.drop_left' h5, take_append_le _ _ _ (by omega),
    List.take_of_length_le (by omega)]

theorem fieldPlain_length (f : Field) (pad : Bytes)
    (hflen : f.raw_value.length = f.raw_len) :
    (fieldPlain f pad).length = 5 + f.raw_len + pad.length := by
  simp only [fieldPlain, le32pack, List.length_append, List.length_cons, List.length_nil,
    hflen]

/-- Reading the chained encryption of a well-formed padded field plaintext
returns the field and leaves the trailing stream untouched. -/
theorem read_of_written_field {σ : Type} {enc dec : σ → Bytes → Bytes × σ}
    (Hlen : ∀ (s : σ) (b : Bytes), b.length = 16 → ((enc s b).1).length = 16)
    (Hnm : ∀ (s : σ) (b : Bytes), b.length = 16 → (enc s b).1 ≠ pws3EofMarker)
    (Hinv : ∀ (s : σ) (b : Bytes), b.length = 16 → dec s (enc s b).1 = (b, (enc s b).2))
    {f : Field} (hflen : f.raw_value.length = f.raw_len) (hfmax : f.raw_len ≤ 1024)
    (st : σ) (pad : Bytes)
    (hplen : (fieldPlain f pad).length = 16 * (1 + (f.raw_len + 4) / 16)) :
    (∀ rest : Bytes,
      read_field_tlv dec st
          ((cbcEncryptBlocks enc st (chunks16 (fieldPlain f pad))).1.flatten ++ rest) =
        .ok f (cbcEncryptBlocks enc st (chunks16 (fieldPlain f pad))).2 rest) ∧
    (∀ r : Nat, 1 ≤ r →
      16 * r < (cbcEncryptBlocks enc st (chunks16 (fieldPlain f pad))).1.flatten.length →
      ∃ st₂ : σ,
        read_field_tlv dec st
            (((cbcEncryptBlocks enc st (chunks16 (fieldPlain f pad))).1.flatten).take
              (16 * r)) = .eof st₂ []) ∧
    (cbcEncryptBlocks enc st (chunks16 (fieldPlain f pad))).1.flatten.length =
      16 * (1 + (f.raw_len + 4) / 16) := by
  set P := fieldPlain f pad with hPdef
  have hPne : P ≠ [] := by
    intro hx
    rw [hx] at hplen
    simp at hplen
  have hcs : chunks16 P = P.take 16 :: chunks16 (P.drop 16) := by
    rw [chunks16_eq, if_neg hPne]
  have hc₀len : (P.take 16).length = 16 := by
    simp only [List.length_take, hplen]
    omega
  have hdroplen : (P.drop 16).length = 16 * ((f.raw_len + 4) / 16) := by
    simp only [List.length_drop, hplen]
    omega
  obtain ⟨hcs'count, hcs'all⟩ := chunks16_all16 _ _ hdroplen
  have hcs'flat : (chunks16 (P.drop 16)).flatten = P.drop 16 := chunks16_flatten _
  have hallP : ∀ c ∈ chunks16 P, c.length = 16 := by
    intro c hc
    rw [hcs] at hc
    rcases List.mem_cons.mp hc with h | h
    · subst h; exact hc₀len
    · exact hcs'all c h
  obtain ⟨hEcount, hEflatlen, hEmem⟩ := cbcEncryptBlocks_spec Hlen Hnm (chunks16 P) st hallP
  have hcountP : (chunks16 P).length = 1 + (f.raw_len + 4) / 16 := by
    rw [hcs]
    simp [hcs'count]
    omega
  -- the first ciphertext block and the encryption of the continuation
  have hEcons : cbcEncryptBlocks enc st (chunks16 P) =
      ((enc st (P.take 16)).1 ::
        (cbcEncryptBlocks enc (enc st (P.take 16)).2 (chunks16 (P.drop 16))).1,
       (cbcEncryptBlocks enc (enc st (P.take 16)).2 (chunks16 (P.drop 16))).2) := by
    rw [hcs]
    rfl
  have hct₀len : ((enc st (P.take 16)).1).length = 16 := Hlen st _ hc₀len
  have hct₀ne : (enc st (P.take 16)).1 ≠ [] := by
    intro hx
    rw [hx] at hct₀len
    simp at hct₀len
  have hct₀nm : (enc st (P.take 16)).1 ≠ pws3EofMarker := Hnm st _ hc₀len
  have hdecct₀ : dec st (enc st (P.take 16)).1 = (P.take 16, (enc st (P.take 16)).2) :=
    Hinv st _ hc₀len
  -- decoding the first block
  have htake4 : (P.take 16).take 4 = le32pack f.raw_len := by
    rw [List.take_take]
    norm_num
    exact fieldPlain_take4 f pad
  have hle32 : le32 ((P.take 16).take 4) = f.raw_len := by
    rw [htake4]
    exact le32_le32pack (by omega)
  have hgetD : (P.take 16).getD 4 0 = f.raw_type := by
    rw [getD_take16 _ (by omega)]
    exact fieldPlain_getD4 f pad
  -- the value recovered from the plaintext
  have hvdrop : (P.take 16).drop 5 ++ P.drop 16 = P.drop 5 := by
    conv_rhs => rw [← List.take_append_drop 16 P]
    rw [drop_append_le _ _ 5 (by rw [hc₀len]; omega)]
  have hvtake : (P.drop 5).take f.raw_len = f.raw_value := fieldPlain_value f pad hflen
  obtain ⟨hE'count, hE'flatlen, hE'mem⟩ := cbcEncryptBlocks_spec Hlen Hnm
    (chunks16 (P.drop 16)) (enc st (P.take 16)).2 hcs'all
  refine ⟨?_, ?_, by rw [hEflatlen, hcountP]⟩
  · -- complete read
    intro rest
    rw [hEcons]
    simp only [List.flatten_cons, List.append_assoc]
    simp only [read_field_tlv, List.take_left' hct₀len, List.drop_left' hct₀len]
    rw [if_neg hct₀ne, if_neg hct₀nm]
    simp only [hdecct₀, hle32, hgetD]
    by_cases h11 : 11 < f.raw_len
    · rw [if_pos h11, if_neg (by omega)]
      have hrb := read_blocks_of_enc Hlen Hinv (chunks16 (P.drop 16))
        (enc st (P.take 16)).2 ((P.take 16).drop 5) rest hcs'all
      rw [hcs'count, hcs'flat, hvdrop] at hrb
      rw [hrb]
      show FieldResult.ok ⟨f.raw_type, f.raw_len, (P.drop 5).take f.raw_len⟩ _ rest = _
      rw [hvtake]
    · rw [if_neg h11]
      have hq0 : (f.raw_len + 4) / 16 = 0 := by omega
      have hdrop0 : P.drop 16 = [] := by
        have h := hdroplen
        rw [hq0] at h
        simp only [Nat.mul_zero] at h
        exact List.eq_nil_of_length_eq_zero h
      have hP16 : P.take 16 = P := by
        refine List.take_of_length_le ?_
        rw [hplen, hq0]
      have hv : ((P.take 16).drop 5).take f.raw_len = f.raw_value := by
        rw [hP16]
        exact hvtake
      rw [hv]
      simp only [hdrop0, chunks16_nil, cbcEncryptBlocks]
      simp
  · -- truncated read
    intro r hr1 hrlt
    rw [hEflatlen, hcountP] at hrlt
    have hrK : r < 1 + (f.raw_len + 4) / 16 := by omega
    have h11 : 11 < f.raw_len := by
      rcases Nat.lt_or_ge f.raw_len 12 with h | h
      · exfalso
        have : (f.raw_len + 4) / 16 = 0 := by omega
        omega
      · omega
    have hEall16 : ∀ b ∈ (cbcEncryptBlocks enc st (chunks16 P)).1, b.length = 16 :=
      fun b hb => (hEmem b hb).1
    rw [flatten_take16 _ r hEall16, hEcons]
    obtain ⟨r', hr'⟩ : ∃ r', r = r' + 1 := ⟨r - 1, by omega⟩
    subst hr'
    simp only [List.take_succ_cons, List.flatten_cons]
    have hE'len : (cbcEncryptBlocks enc (enc st (P.take 16)).2 (chunks16 (P.drop 16))).1.length
        = (f.raw_len + 4) / 16 := by
      rw [hE'count, hcs'count]
    have htblocks : ∀ b ∈ (cbcEncryptBlocks enc (enc st (P.take 16)).2
        (chunks16 (P.drop 16))).1.take r', b.length = 16 :=
      fun b hb => (hE'mem b (List.mem_of_mem_take hb)).1
    have htlen : ((cbcEncryptBlocks enc (enc st (P.take 16)).2
        (chunks16 (P.drop 16))).1.take r').length < (f.raw_len + 4) / 16 := by
      rw [List.length_take, hE'len]
      omega
    obtain ⟨st₂, hrb⟩ := read_blocks_truncated _ ((f.raw_len + 4) / 16)
      (enc st (P.take 16)).2 ((P.take 16).drop 5) htlen htblocks
    refine ⟨st₂, ?_⟩
    simp only [read_field_tlv, List.take_left' hct₀len, List.drop_left' hct₀len]
    rw [if_neg hct₀ne, if_neg hct₀nm]
    simp only [hdecct₀, hle32, hgetD]
    rw [if_pos h11, if_neg (by omega), hrb]

/-- `_write_field_tlv` on a well-formed field: the bytes written are the
chained encryption of the padded TLV plaintext, whose length is
`16 * (1 + (raw_len + 4) / 16)`. -/
theorem write_field_tlv_ok {σ ρ : Type} {enc : σ → Bytes → Bytes × σ}
    {urand : ρ → Nat → Bytes × ρ}
    (Hur : ∀ (r : ρ) (n : Nat), ((urand r n).1).length = n)
    {f : Field} (hflen : f.raw_value.length = f.raw_len) (hfmax : f.raw_len ≤ 1024)
    (hftype : f.raw_type < 256) (st : σ) (rng : ρ) :
    ∃ (pad : Bytes) (rng' : ρ),
      write_field_tlv enc urand st rng (some f) =
        .ok ((cbcEncryptBlocks enc st (chunks16 (fieldPlain f pad))).1.flatten,
             (cbcEncryptBlocks enc st (chunks16 (fieldPlain f pad))).2, rng') ∧
      (fieldPlain f pad).length = 16 * (1 + (f.raw_len + 4) / 16) := by
  have hdlen : (le32pack f.raw_len ++ [f.raw_type] ++ f.raw_value).length =
      5 + f.raw_len := by
    simp only [le32pack, List.length_append, List.length_cons, List.length_nil, hflen]
  simp only [write_field_tlv]
  rw [if_neg (by omega), if_neg (by push_neg; omega)]
  by_cases hmod : (le32pack f.raw_len ++ [f.raw_type] ++ f.raw_value).length % 16 = 0
  · refine ⟨[], rng, ?_, ?_⟩
    · rw [if_neg (by omega), if_neg (by omega)]
      simp [fieldPlain]
    · rw [fieldPlain_length f [] hflen]
      simp only [List.length_nil]
      omega
  · refine ⟨(urand rng (16 - (le32pack f.raw_len ++ [f.raw_type] ++
      f.raw_value).length % 16)).1,
      (urand rng (16 - (le32pack f.raw_len ++ [f.raw_type] ++
        f.raw_value).length % 16)).2, ?_, ?_⟩
    · rw [if_pos (by omega), if_pos (by omega)]
      simp [fieldPlain]
    · rw [fieldPlain_length _ _ hflen, Hur]
      rw [hdlen] at hmod ⊢
      omega

/-- One field, written then read back: the bytes produced by
`_write_field_tlv` parse by `_read_field_tlv` to the same field with the
cipher states in lockstep, and any nonempty strict block-prefix of those
bytes parses to the truncation outcome (`None` with the stream consumed). -/
theorem write_read_field {σ ρ : Type} {enc dec : σ → Bytes → Bytes × σ}
    {urand : ρ → Nat → Bytes × ρ}
    (Hlen : ∀ (s : σ) (b : Bytes), b.length = 16 → ((enc s b).1).length = 16)
    (Hnm : ∀ (s : σ) (b : Bytes), b.length = 16 → (enc s b).1 ≠ pws3EofMarker)
    (Hinv : ∀ (s : σ) (b : Bytes), b.length = 16 → dec s (enc s b).1 = (b, (enc s b).2))
    (Hur : ∀ (r : ρ) (n : Nat), ((urand r n).1).length = n)
    {f : Field} (hflen : f.raw_value.length = f.raw_len) (hfmax : f.raw_len ≤ 1024)
    (hftype : f.raw_type < 256) (st : σ) (rng : ρ) :
    ∃ (W : Bytes) (st' : σ) (rng' : ρ),
      write_field_tlv enc urand st rng (some f) = .ok (W, st', rng') ∧
      W.length = 16 * (1 + (f.raw_len + 4) / 16) ∧
      (∀ rest : Bytes, read_field_tlv dec st (W ++ rest) = .ok f st' rest) ∧
      (∀ r : Nat, 1 ≤ r → 16 * r < W.length →
        ∃ st₂ : σ, read_field_tlv dec st (W.take (16 * r)) = .eof st₂ []) := by
  obtain ⟨pad, rng', hw, hplen⟩ := write_field_tlv_ok Hur hflen hfmax hftype st rng
  obtain ⟨hread, htrunc, hWlen⟩ :=
    read_of_written_field Hlen Hnm Hinv hflen hfmax st pad hplen
  refine ⟨_, _, rng', hw, ?_, hread, ?_⟩
  · rw [hWlen]
  · intro r hr1 hrlt
    exact htrunc r hr1 hrlt

/-- Well-formedness of a list of record/header fields as the write path
requires: each field's value length equals its declared length (the
`assert` of `_write_field_tlv`), lengths within the reader's 1024 bound,
types packable as one byte, and no field usurping the 0xff sentinel type. -/
def WfFieldList (fs : List Field) : Prop :=
  ∀ f ∈ fs, f.raw_value.length = f.raw_len ∧ f.raw_len ≤ 1024 ∧
    f.raw_type < 256 ∧ f.raw_type ≠ 255

instance (fs : List Field) : Decidable (WfFieldList fs) := by
  unfold WfFieldList
  infer_instance

/-- Well-formedness of a field dict: keys are the fields' types (the
`add_raw_field` invariant), keys unique (a dict), fields well-formed. -/
def WfFieldMap (l : List (Nat × Field)) : Prop :=
  (∀ p ∈ l, p.1 = p.2.raw_type) ∧ (l.map Prod.fst).Nodup ∧
    WfFieldList (l.map Prod.snd)

instance (l : List (Nat × Field)) : Decidable (WfFieldMap l) := by
  unfold WfFieldMap
  infer_instance

/-- A list of fields, written then read back: `write_field_list` succeeds,
accumulating the fields' values into the HMAC message; the written bytes
compose with either read loop by stepping through every field; and any
block-aligned strict prefix of the written bytes drives either read loop to
a raised `VaultFormatError` or to a normal return with the stream fully
consumed. -/
theorem write_read_field_list {σ ρ : Type} {enc dec : σ → Bytes → Bytes × σ}
    {urand : ρ → Nat → Bytes × ρ}
    (Hlen : ∀ (s : σ) (b : Bytes), b.length = 16 → ((enc s b).1).length = 16)
    (Hnm : ∀ (s : σ) (b : Bytes), b.length = 16 → (enc s b).1 ≠ pws3EofMarker)
    (Hinv : ∀ (s : σ) (b : Bytes), b.length = 16 → dec s (enc s b).1 = (b, (enc s b).2))
    (Hur : ∀ (r : ρ) (n : Nat), ((urand r n).1).length = n) :
    ∀ (fs : List Field) (st : σ) (rng : ρ) (buf : Bytes), WfFieldList fs →
      ∃ (cts : List Bytes) (st' : σ) (rng' : ρ),
        write_field_list enc urand fs st rng buf =
          .ok (cts, st', rng', buf ++ (fs.map Field.raw_value).flatten) ∧
        cts.flatten.length % 16 = 0 ∧
        (∀ (rest : Bytes) (fields : List (Nat × Field)) (macBuf : Bytes),
          read_header dec st (cts.flatten ++ rest) fields macBuf =
            read_header dec st' rest (fs.foldl addRawField fields)
              (macBuf ++ (fs.map Field.raw_value).flatten)) ∧
        (∀ (rest : Bytes) (recs : List Record) (cur : Record) (macBuf : Bytes),
          read_records dec st (cts.flatten ++ rest) recs cur macBuf =
            read_records dec st' rest recs ⟨List.foldl addRawField cur.raw_fields fs⟩
              (macBuf ++ (fs.map Field.raw_value).flatten)) ∧
        (∀ j : Nat, 16 * j < cts.flatten.length →
          (∀ (fields : List (Nat × Field)) (macBuf : Bytes),
            read_header dec st (cts.flatten.take (16 * j)) fields macBuf =
                .error .formatError ∨
              ∃ stE fE mE, read_header dec st (cts.flatten.take (16 * j)) fields macBuf =
                .ok (fE, mE, stE, [])) ∧
          (∀ (recs : List Record) (cur : Record) (macBuf : Bytes),
            read_records dec st (cts.flatten.take (16 * j)) recs cur macBuf =
                .error .formatError ∨
              ∃ stE rE mE, read_records dec st (cts.flatten.take (16 * j)) recs cur macBuf =
                .ok (rE, mE, stE, []))) := by
  intro fs
  induction fs with
  | nil =>
    intro st rng buf _
    refine ⟨[], st, rng, ?_, ?_, ?_, ?_, ?_⟩
    · simp [write_field_list]
    · simp
    · intro rest fields macBuf
      simp
    · intro rest recs cur macBuf
      simp
    · intro j hj
      simp at hj
  | cons f fs ih =>
    intro st rng buf hwf
    have hf := hwf f (List.mem_cons_self f fs)
    have hfs : WfFieldList fs := fun g hg => hwf g (List.mem_cons_of_mem f hg)
    obtain ⟨W, st₁, rng₁, hwW, hWlen, hWread, hWtrunc⟩ :=
      write_read_field Hlen Hnm Hinv Hur hf.1 hf.2.1 hf.2.2.1 st rng
    obtain ⟨cts', st', rng', hwrest, hmod', hhdr, hrec, htrunc⟩ :=
      ih st₁ rng₁ (buf ++ f.raw_value) hfs
    refine ⟨W :: cts', st', rng', ?_, ?_, ?_, ?_, ?_⟩
    · simp only [write_field_list, hwW, hwrest]
      simp [List.append_assoc]
    · simp only [List.flatten_cons, List.length_append, hWlen]
      omega
    · intro rest fields macBuf
      simp only [List.flatten_cons, List.append_assoc]
      rw [read_header_step (hWread (cts'.flatten ++ rest)) hf.2.2.2 fields macBuf, hhdr]
      simp [List.append_assoc]
    · intro rest recs cur macBuf
      simp only [List.flatten_cons, List.append_assoc]
      rw [read_records_step (hWread (cts'.flatten ++ rest)) hf.2.2.2 recs cur macBuf, hrec]
      simp [List.append_assoc]
    · intro j hj
      rcases Nat.eq_zero_or_pos j with hj0 | hjpos
      · subst hj0
        simp only [Nat.mul_zero, List.take_zero]
        exact ⟨fun fields macBuf => .inl (read_header_nil dec st fields macBuf),
               fun recs cur macBuf => .inl (read_records_nil dec st recs cur macBuf)⟩
      · rcases Nat.lt_or_ge (16 * j) W.length with hin | hout
        · have htk : (W :: cts').flatten.take (16 * j) = W.take (16 * j) := by
            simp only [List.flatten_cons]
            rw [List.take_append_eq_append_take, Nat.sub_eq_zero_of_le (by omega),
              List.take_zero, List.append_nil]
          obtain ⟨st₂, heof⟩ := hWtrunc j hjpos hin
          rw [htk]
          exact ⟨fun fields macBuf =>
                   .inr ⟨st₂, fields, macBuf, read_header_eof_step heof fields macBuf⟩,
                 fun recs cur macBuf =>
                   .inr ⟨st₂, recs, macBuf, read_records_eof_step heof recs cur macBuf⟩⟩
        · have hflen' : (W :: cts').flatten.length = W.length + cts'.flatten.length := by
            simp
          have hsplit : (W :: cts').flatten.take (16 * j) =
              W ++ cts'.flatten.take (16 * j - W.length) := by
            simp only [List.flatten_cons]
            rw [List.take_append_eq_append_take, List.take_of_length_le (by omega)]
          have hj16 : 16 * j - W.length = 16 * (j - (1 + (f.raw_len + 4) / 16)) := by
            rw [hWlen]
            have : (1 + (f.raw_len + 4) / 16) ≤ j := by omega
            omega
          have hjr : 16 * (j - (1 + (f.raw_len + 4) / 16)) < cts'.flatten.length := by
            rw [hflen'] at hj
            omega
          obtain ⟨hH, hR⟩ := htrunc (j - (1 + (f.raw_len + 4) / 16)) hjr
          rw [hsplit, hj16]
          constructor
          · intro fields macBuf
            rw [read_header_step (hWread _) hf.2.2.2 fields macBuf]
            exact hH (addRawField fields f) (macBuf ++ f.raw_value)
          · intro recs cur macBuf
            rw [read_records_step (hWread _) hf.2.2.2 recs cur macBuf]
            exact hR recs ⟨addRawField cur.raw_fields f⟩ (macBuf ++ f.raw_value)

/-- Well-formedness of a record: its field dict is well-formed. -/
def WfRecord (r : Record) : Prop := WfFieldMap r.raw_fields

instance (r : Record) : Decidable (WfRecord r) := by
  unfold WfRecord
  infer_instance

/-- The HMAC-message contribution of a list of records as the write loop
accumulates it: each record's field values in dict order (the sentinels'
empty values contribute nothing to the concatenation). -/
def recordsMac (rs : List Record) : Bytes :=
  (rs.map (fun r => ((r.raw_fields.map Prod.snd).map Field.raw_value).flatten)).flatten

/-- A list of records, written then read back: `write_records` succeeds;
the written bytes step the record loop through every record, flushing each
on its sentinel; and any block-aligned strict prefix of the written bytes
drives the record loop to a raised `VaultFormatError` or to a normal
return with the stream fully consumed. -/
theorem write_read_records {σ ρ : Type} {enc dec : σ → Bytes → Bytes × σ}
    {urand : ρ → Nat → Bytes × ρ}
    (Hlen : ∀ (s : σ) (b : Bytes), b.length = 16 → ((enc s b).1).length = 16)
    (Hnm : ∀ (s : σ) (b : Bytes), b.length = 16 → (enc s b).1 ≠ pws3EofMarker)
    (Hinv : ∀ (s : σ) (b : Bytes), b.length = 16 → dec s (enc s b).1 = (b, (enc s b).2))
    (Hur : ∀ (r : ρ) (n : Nat), ((urand r n).1).length = n) :
    ∀ (rs : List Record) (st : σ) (rng : ρ) (buf : Bytes), (∀ r ∈ rs, WfRecord r) →
      ∃ (cts : List Bytes) (st' : σ) (rng' : ρ),
        write_records enc urand rs st rng buf =
          .ok (cts, st', rng', buf ++ recordsMac rs) ∧
        cts.flatten.length % 16 = 0 ∧
        (∀ (rest : Bytes) (recs : List Record) (macBuf : Bytes),
          read_records dec st (cts.flatten ++ rest) recs ⟨[]⟩ macBuf =
            read_records dec st' rest (recs ++ rs) ⟨[]⟩ (macBuf ++ recordsMac rs)) ∧
        (∀ j : Nat, 16 * j < cts.flatten.length →
          ∀ (recs : List Record) (macBuf : Bytes),
            read_records dec st (cts.flatten.take (16 * j)) recs ⟨[]⟩ macBuf =
                .error .formatError ∨
              ∃ stE rE mE, read_records dec st (cts.flatten.take (16 * j)) recs ⟨[]⟩ macBuf =
                .ok (rE, mE, stE, [])) := by
  intro rs
  induction rs with
  | nil =>
    intro st rng buf _
    refine ⟨[], st, rng, ?_, ?_, ?_, ?_⟩
    · simp [write_records, recordsMac]
    · simp
    · intro rest recs macBuf
      simp [recordsMac]
    · intro j hj
      simp at hj
  | cons r rs ih =>
    intro st rng buf hwf
    have hr := hwf r (List.mem_cons_self r rs)
    have hrs : ∀ q ∈ rs, WfRecord q := fun q hq => hwf q (List.mem_cons_of_mem r hq)
    obtain ⟨cts₁, st₁, rng₁, hw₁, hmod₁, hhdr₁, hrec₁, htrunc₁⟩ :=
      write_read_field_list Hlen Hnm Hinv Hur (r.raw_fields.map Prod.snd) st rng buf
        hr.2.2
    obtain ⟨Ws, st₂, rng₂, hwS, hWslen, hWsread, _⟩ :=
      write_read_field Hlen Hnm Hinv Hur (f := end_of_record) rfl (by decide)
        (by decide) st₁ rng₁
    obtain ⟨cts', st', rng', hw', hmod', hrec', htrunc'⟩ :=
      ih st₂ rng₂ (buf ++ ((r.raw_fields.map Prod.snd).map Field.raw_value).flatten
        ++ end_of_record.raw_value) hrs
    have hrebuild : List.foldl addRawField (([] : List (Nat × Field)))
        (r.raw_fields.map Prod.snd) = r.raw_fields := by
      have h := foldl_addRawField_rebuild r.raw_fields [] hr.1 hr.2.1
        (fun p _ => rfl)
      simpa using h
    have hWs16 : Ws.length = 16 := by
      rw [hWslen]
      decide
    refine ⟨cts₁ ++ Ws :: cts', st', rng', ?_, ?_, ?_, ?_⟩
    · simp only [write_records, hw₁, hwS, hw']
      simp only [recordsMac, List.map_cons, List.flatten_cons, end_of_record,
        List.append_nil, List.append_assoc]
    · simp only [List.flatten_append, List.flatten_cons, List.length_append, hWs16]
      omega
    · intro rest recs macBuf
      have hfl : (cts₁ ++ Ws :: cts').flatten =
          cts₁.flatten ++ (Ws ++ cts'.flatten) := by
        simp
      rw [hfl]
      simp only [List.append_assoc]
      rw [hrec₁ (Ws ++ (cts'.flatten ++ rest)) recs ⟨[]⟩ macBuf]
      have hcur : (⟨List.foldl addRawField (Record.mk []).raw_fields
          (r.raw_fields.map Prod.snd)⟩ : Record) = r := by
        show (⟨List.foldl addRawField [] (r.raw_fields.map Prod.snd)⟩ : Record) = r
        rw [hrebuild]
      rw [hcur]
      rw [read_records_sentinel_step (hWsread (cts'.flatten ++ rest)) rfl]
      rw [hrec' rest (recs ++ [r]) _]
      simp only [recordsMac, List.map_cons, List.flatten_cons, end_of_record,
        List.append_nil, List.append_assoc, List.singleton_append]
    · intro j hj
      have hfl : (cts₁ ++ Ws :: cts').flatten =
          cts₁.flatten ++ (Ws ++ cts'.flatten) := by
        simp
      have hjtot : 16 * j < cts₁.flatten.length + (16 + cts'.flatten.length) := by
        rw [hfl] at hj
        simp only [List.length_append, hWs16] at hj
        omega
      rcases Nat.lt_or_ge (16 * j) cts₁.flatten.length with hin | hout
      · intro recs macBuf
        have htk : (cts₁ ++ Ws :: cts').flatten.take (16 * j) =
            cts₁.flatten.take (16 * j) := by
          rw [hfl, List.take_append_eq_append_take, Nat.sub_eq_zero_of_le (by omega),
            List.take_zero, List.append_nil]
        rw [htk]
        exact (htrunc₁ j hin).2 recs ⟨[]⟩ macBuf
      · rcases Nat.lt_or_ge (16 * j) (cts₁.flatten.length + 16) with hmid | hafter
        · -- the prefix ends exactly at the record's field bytes: the sentinel
          -- block is 16 bytes, so a block-aligned cut inside it is the cut
          -- right before it
          have hex : 16 * j = cts₁.flatten.length := by
            omega
          intro recs macBuf
          have htk : (cts₁ ++ Ws :: cts').flatten.take (16 * j) =
              cts₁.flatten ++ [] := by
            rw [hfl, hex, List.take_append_eq_append_take, List.take_length,
              Nat.sub_self, List.take_zero]
          rw [htk]
          rw [hrec₁ [] recs ⟨[]⟩ macBuf]
          exact .inl (read_records_nil dec st₁ _ _ _)
        · intro recs macBuf
          have hsplit : (cts₁ ++ Ws :: cts').flatten.take (16 * j) =
              cts₁.flatten ++ (Ws ++ cts'.flatten.take (16 * j -
                cts₁.flatten.length - 16)) := by
            rw [hfl, List.take_append_eq_append_take,
              List.take_of_length_le (by omega), List.take_append_eq_append_take,
              List.take_of_length_le (by rw [hWs16]; omega), hWs16]
          rw [hsplit]
          rw [hrec₁ _ recs ⟨[]⟩ macBuf]
          have hcur : (⟨List.foldl addRawField (Record.mk []).raw_fields
              (r.raw_fields.map Prod.snd)⟩ : Record) = r := by
            show (⟨List.foldl addRawField [] (r.raw_fields.map Prod.snd)⟩ : Record) = r
            rw [hrebuild]
          rw [hcur]
          rw [read_records_sentinel_step (hWsread _) rfl]
          obtain ⟨j', hj'⟩ : ∃ j', 16 * j - cts₁.flatten.length - 16 = 16 * j' :=
            ⟨(16 * j - cts₁.flatten.length - 16) / 16, by omega⟩
          rw [hj']
          have hj'lt : 16 * j' < cts'.flatten.length := by
            omega
          exact htrunc' j' hj'lt (recs ++ [r]) _

/-- **C6.**  For every container stream carrying the magic tag and at least
the 40-byte prefix Python's `struct.unpack` requires, and every password
whose stretched digest does not hash to the stored password-check bytes
(bytes 40..72 of the stream), `read_from_file` fails with `BadPassword`.
The cipher components of `C` (`ecbDecrypt`, `cbcInit`, `cbcDecrypt`) and
the bytes beyond offset 72 are universally quantified and unconstrained:
the failure is decided before any key is unwrapped or any header or record
field block is decrypted, so no field data is exposed. -/
theorem C6_bad_password {σ : Type} (C : Crypto σ) (stream password : Bytes)
    (htag : stream.take 4 = pws3Tag) (hlen : 40 ≤ stream.length)
    (hmismatch : (((stream.drop 4).drop 32).drop 4).take 32 ≠
      C.sha256 (stretch_password C.sha256 password ((stream.drop 4).take 32)
        (le32 (((stream.drop 4).drop 32).take 4)))) :
    read_from_file C stream password = .error .badPassword := by
  simp only [read_from_file, htag, ne_eq, not_true_eq_false, if_false, ite_false,
    if_neg, hmismatch, not_false_eq_true, if_pos, ite_true]

/-- Witness for C6 at a concrete stream and password. -/
theorem C6_bad_password_witness :
    read_from_file toyC
      (pws3Tag ++ List.replicate 36 0 ++ List.replicate 32 9 ++ List.replicate 200 0)
      toyPw = .error .badPassword :=
  C6_bad_password toyC
    (pws3Tag ++ List.replicate 36 0 ++ List.replicate 32 9 ++ List.replicate 200 0)
    toyPw (by decide) (by decide) (by decide)

/-! ### Whole-container save/load correspondence -/

/-- The stretched key the container derives for a vault's stored
parameters. -/
def vaultStretched {σ : Type} (C : Crypto σ) (v : Vault) (password : Bytes) : Bytes :=
  stretch_password C.sha256 password v.f_salt v.f_iter

/-- The data key K = decrypt(B1) ‖ decrypt(B2). -/
def vaultKeyK {σ : Type} (C : Crypto σ) (v : Vault) (password : Bytes) : Bytes :=
  C.ecbDecrypt (vaultStretched C v password) v.f_b1 ++
    C.ecbDecrypt (vaultStretched C v password) v.f_b2

/-- The MAC key L = decrypt(B3) ‖ decrypt(B4). -/
def vaultKeyL {σ : Type} (C : Crypto σ) (v : Vault) (password : Bytes) : Bytes :=
  C.ecbDecrypt (vaultStretched C v password) v.f_b3 ++
    C.ecbDecrypt (vaultStretched C v password) v.f_b4

/-- The fixed-layout 152-byte prefix the save path writes: tag, salt,
iteration count, password-check hash, B1..B4, IV. -/
def vaultBoiler {σ : Type} (C : Crypto σ) (v : Vault) (password : Bytes) : Bytes :=
  v.f_tag ++ (v.f_salt ++ (le32pack v.f_iter ++
    (C.sha256 (vaultStretched C v password) ++
      (v.f_b1 ++ (v.f_b2 ++ (v.f_b3 ++ (v.f_b4 ++ v.f_iv)))))))

/-- The header fields' HMAC-message contribution, in dict order. -/
def headerMac (v : Vault) : Bytes :=
  ((v.header.map Prod.snd).map Field.raw_value).flatten

/-- The integrity tag the save path computes for a vault. -/
def vaultMac {σ : Type} (C : Crypto σ) (v : Vault) (password : Bytes) : Bytes :=
  C.hmac (vaultKeyL C v password) (headerMac v ++ recordsMac v.records)

/-- Well-formedness of a vault for the write path: the magic tag, the
documented component lengths, a packable iteration count, and well-formed
field dicts throughout. -/
def WfVault (v : Vault) : Prop :=
  v.f_tag = pws3Tag ∧ v.f_salt.length = 32 ∧ v.f_iter < 4294967296 ∧
  v.f_b1.length = 16 ∧ v.f_b2.length = 16 ∧ v.f_b3.length = 16 ∧
  v.f_b4.length = 16 ∧ v.f_iv.length = 16 ∧ WfFieldMap v.header ∧
  ∀ r ∈ v.records, WfRecord r

instance (v : Vault) : Decidable (WfVault v) := by
  unfold WfVault
  infer_instance

/-- `read_from_file` on a well-layouted stream, decomposed: the boilerplate
parses positionally, the password check passes when the stored check hash is
the digest of the stretched password, and the result is the field-phase
computation on the tail. -/
theorem read_from_file_decompose {σ : Type} (C : Crypto σ)
    (password salt shaps b1 b2 b3 b4 iv t : Bytes) (iter : Nat)
    (hsalt : salt.length = 32) (hiter : iter < 4294967296)
    (hshaL : shaps.length = 32) (hb1 : b1.length = 16) (hb2 : b2.length = 16)
    (hb3 : b3.length = 16) (hb4 : b4.length = 16) (hiv : iv.length = 16)
    (hsha : shaps = C.sha256 (stretch_password C.sha256 password salt iter)) :
    read_from_file C
        (pws3Tag ++ (salt ++ (le32pack iter ++ (shaps ++
          (b1 ++ (b2 ++ (b3 ++ (b4 ++ (iv ++ t))))))))) password =
      (match read_header C.cbcDecrypt
          (C.cbcInit (C.ecbDecrypt (stretch_password C.sha256 password salt iter) b1 ++
            C.ecbDecrypt (stretch_password C.sha256 password salt iter) b2) iv)
          t [] [] with
       | .error e => .error e
       | .ok (hdr, macBuf, st₁, s9) =>
         match read_records C.cbcDecrypt st₁ s9 [] ⟨[]⟩ macBuf with
         | .error e => .error e
         | .ok (recs, macBuf₂, _, s10) =>
           if s10.take 32 ≠
               C.hmac (C.ecbDecrypt (stretch_password C.sha256 password salt iter) b3 ++
                 C.ecbDecrypt (stretch_password C.sha256 password salt iter) b4)
                 macBuf₂ then
             .error .formatError
           else
             .ok ⟨pws3Tag, salt, iter, shaps, b1, b2, b3, b4, iv, s10.take 32,
                  hdr, recs⟩) := by
  have h4 : pws3Tag.length = 4 := rfl
  have hpk : (le32pack iter).length = 4 := rfl
  simp only [read_from_file, List.take_left' h4, List.drop_left' h4,
    List.take_left' hsalt, List.drop_left' hsalt, List.take_left' hpk,
    List.drop_left' hpk, List.take_left' hshaL, List.drop_left' hshaL,
    List.take_left' hb1, List.drop_left' hb1, List.take_left' hb2,
    List.drop_left' hb2, List.take_left' hb3, List.drop_left' hb3,
    List.take_left' hb4, List.drop_left' hb4, List.take_left' hiv,
    List.drop_left' hiv, le32_le32pack hiter]
  rw [if_neg (by simp), if_neg (by simp [hsha])]

/-- The full save-side structure of a well-formed vault, with everything
the load-side theorems need: the exact chunk list `write_chunks` produces
(the 152-byte boilerplate, the encrypted field stream `mid`, the
unencrypted end-of-file marker and the integrity tag); that the field
stream is whole 16-byte blocks; that loading the container body with any
trailing tag bytes `t` verifies `t.take 32` against exactly the
save-side digest and reproduces the vault's header and records; and that
loading any block-aligned truncation of the field stream fails with
`VaultFormatError`. -/
theorem write_field_tlv_none {σ ρ : Type} (enc : σ → Bytes → Bytes × σ)
    (urand : ρ → Nat → Bytes × ρ) (st : σ) (rng : ρ) :
    write_field_tlv enc urand st rng none = .ok (pws3EofMarker, st, rng) := rfl

theorem save_parse {σ ρ : Type} (C : Crypto σ) (urand : ρ → Nat → Bytes × ρ)
    (v : Vault) (password : Bytes) (rng : ρ)
    (Hsha : ∀ b : Bytes, (C.sha256 b).length = 32)
    (Hhmac : ∀ k m : Bytes, (C.hmac k m).length = 32)
    (Hlen : ∀ (st : σ) (b : Bytes), b.length = 16 → ((C.cbcEncrypt st b).1).length = 16)
    (Hnm : ∀ (st : σ) (b : Bytes), b.length = 16 → (C.cbcEncrypt st b).1 ≠ pws3EofMarker)
    (Hinv : ∀ (st : σ) (b : Bytes), b.length = 16 →
      C.cbcDecrypt st (C.cbcEncrypt st b).1 = (b, (C.cbcEncrypt st b).2))
    (Hur : ∀ (r : ρ) (n : Nat), ((urand r n).1).length = n)
    (Hv : WfVault v) :
    ∃ mid : List Bytes,
      write_chunks C urand v password rng =
        .ok ([v.f_tag, v.f_salt, le32pack v.f_iter,
              C.sha256 (vaultStretched C v password), v.f_b1, v.f_b2, v.f_b3,
              v.f_b4, v.f_iv] ++ mid ++ [pws3EofMarker, vaultMac C v password]) ∧
      mid.flatten.length % 16 = 0 ∧
      (∀ t : Bytes,
        read_from_file C
            (vaultBoiler C v password ++ (mid.flatten ++ (pws3EofMarker ++ t)))
            password =
          if t.take 32 = vaultMac C v password then
            .ok ⟨pws3Tag, v.f_salt, v.f_iter, C.sha256 (vaultStretched C v password),
                 v.f_b1, v.f_b2, v.f_b3, v.f_b4, v.f_iv, t.take 32,
                 v.header, v.records⟩
          else .error .formatError) ∧
      (∀ j : Nat, 16 * j ≤ mid.flatten.length →
        read_from_file C (vaultBoiler C v password ++ mid.flatten.take (16 * j))
            password = .error .formatError) := by
  obtain ⟨htag, hsalt, hiter, hb1, hb2, hb3, hb4, hiv, hhdr, hrecs⟩ := Hv
  obtain ⟨hcts, stH, rngH, hwH, hmodH, hcompH, -, htruncH⟩ :=
    write_read_field_list Hlen Hnm Hinv Hur
      (v.header.map Prod.snd)
      (C.cbcInit (C.ecbDecrypt (stretch_password C.sha256 password v.f_salt v.f_iter)
          v.f_b1 ++
        C.ecbDecrypt (stretch_password C.sha256 password v.f_salt v.f_iter) v.f_b2)
        v.f_iv)
      rng [] hhdr.2.2
  obtain ⟨Ws, stS, rngS, hwS, hWslen, hWsread, -⟩ :=
    write_read_field Hlen Hnm Hinv Hur (f := end_of_record) rfl
      (by decide) (by decide) stH rngH
  have hWs16 : Ws.length = 16 := by
    rw [hWslen]
    decide
  obtain ⟨rcts, stR, rngR, hwR, hmodR, hcompR, htruncR⟩ :=
    write_read_records Hlen Hnm Hinv Hur v.records stS rngS
      (([] ++ ((v.header.map Prod.snd).map Field.raw_value).flatten) ++
        end_of_record.raw_value) hrecs
  have hrebuild : List.foldl addRawField ([] : List (Nat × Field))
      (v.header.map Prod.snd) = v.header := by
    have h := foldl_addRawField_rebuild v.header [] hhdr.1 hhdr.2.1 (fun p _ => rfl)
    simpa using h
  have hmidflat : (hcts ++ Ws :: rcts).flatten =
      hcts.flatten ++ (Ws ++ rcts.flatten) := by
    simp
  have hshape : ∀ T : Bytes, vaultBoiler C v password ++ T =
      pws3Tag ++ (v.f_salt ++ (le32pack v.f_iter ++
        (C.sha256 (stretch_password C.sha256 password v.f_salt v.f_iter) ++
          (v.f_b1 ++ (v.f_b2 ++ (v.f_b3 ++ (v.f_b4 ++ (v.f_iv ++ T)))))))) := by
    intro T
    simp [vaultBoiler, vaultStretched, htag, List.append_assoc]
  have hdigestne : ∀ (k m : Bytes), ([] : Bytes) ≠ C.hmac k m := by
    intro k m hx
    have := congrArg List.length hx
    rw [Hhmac] at this
    simp at this
  refine ⟨hcts ++ Ws :: rcts, ?_, ?_, ?_, ?_⟩
  · -- the chunk list written
    simp only [write_chunks]
    rw [if_neg (by omega)]
    simp only [hwH, hwS, hwR, write_field_tlv_none]
    simp only [vaultMac, vaultKeyL, vaultStretched, headerMac, end_of_record,
      List.append_nil, List.nil_append, List.append_assoc, List.cons_append,
      List.singleton_append, List.nil_append]
  · -- whole blocks
    rw [hmidflat]
    simp only [List.length_append, hWs16]
    omega
  · -- loading the body with an arbitrary trailing tag
    intro t
    have h2 : read_header C.cbcDecrypt
        (C.cbcInit (C.ecbDecrypt (stretch_password C.sha256 password v.f_salt v.f_iter)
            v.f_b1 ++
          C.ecbDecrypt (stretch_password C.sha256 password v.f_salt v.f_iter) v.f_b2)
          v.f_iv)
        (hcts.flatten ++ (Ws ++ (rcts.flatten ++ (pws3EofMarker ++ t)))) [] [] =
        .ok (v.header, [] ++ ((v.header.map Prod.snd).map Field.raw_value).flatten,
             stS, rcts.flatten ++ (pws3EofMarker ++ t)) := by
      rw [hcompH (Ws ++ (rcts.flatten ++ (pws3EofMarker ++ t))) [] [], hrebuild,
        read_header_sentinel_step (hWsread (rcts.flatten ++ (pws3EofMarker ++ t))) rfl]
    have h3 : read_records C.cbcDecrypt stS (rcts.flatten ++ (pws3EofMarker ++ t)) []
        ⟨[]⟩ ([] ++ ((v.header.map Prod.snd).map Field.raw_value).flatten) =
        .ok (v.records,
             ([] ++ ((v.header.map Prod.snd).map Field.raw_value).flatten) ++
               recordsMac v.records, stR, t) := by
      rw [hcompR (pws3EofMarker ++ t) [] _,
        read_records_eof_step (read_field_tlv_marker C.cbcDecrypt stR t)]
      simp
    rw [hmidflat]
    rw [hshape ((hcts.flatten ++ (Ws ++ rcts.flatten)) ++ (pws3EofMarker ++ t))]
    rw [read_from_file_decompose C password v.f_salt
      (C.sha256 (stretch_password C.sha256 password v.f_salt v.f_iter))
      v.f_b1 v.f_b2 v.f_b3 v.f_b4 v.f_iv
      (hcts.flatten ++ (Ws ++ rcts.flatten) ++ (pws3EofMarker ++ t)) v.f_iter
      hsalt hiter (Hsha _) hb1 hb2 hb3 hb4 hiv rfl]
    rw [show hcts.flatten ++ (Ws ++ rcts.flatten) ++ (pws3EofMarker ++ t) =
      hcts.flatten ++ (Ws ++ (rcts.flatten ++ (pws3EofMarker ++ t))) by
        simp [List.append_assoc]]
    simp only [h2, h3]
    simp only [vaultMac, vaultKeyL, vaultStretched, headerMac, List.nil_append]
    by_cases hcond : t.take 32 =
        C.hmac (C.ecbDecrypt (stretch_password C.sha256 password v.f_salt v.f_iter)
            v.f_b3 ++
          C.ecbDecrypt (stretch_password C.sha256 password v.f_salt v.f_iter) v.f_b4)
          (((v.header.map Prod.snd).map Field.raw_value).flatten ++
            recordsMac v.records)
    · rw [if_neg (by simp [hcond]), if_pos hcond]
    · rw [if_pos hcond, if_neg hcond]
  · -- block-aligned truncations of the field stream
    intro j hj
    rw [hmidflat] at hj
    simp only [List.length_append, hWs16] at hj
    rw [hmidflat]
    rw [hshape ((hcts.flatten ++ (Ws ++ rcts.flatten)).take (16 * j))]
    rw [read_from_file_decompose C password v.f_salt
      (C.sha256 (stretch_password C.sha256 password v.f_salt v.f_iter))
      v.f_b1 v.f_b2 v.f_b3 v.f_b4 v.f_iv
      ((hcts.flatten ++ (Ws ++ rcts.flatten)).take (16 * j)) v.f_iter
      hsalt hiter (Hsha _) hb1 hb2 hb3 hb4 hiv rfl]
    rcases Nat.lt_or_ge (16 * j) hcts.flatten.length with hin | hout
    · -- truncation inside the header fields
      have htk : (hcts.flatten ++ (Ws ++ rcts.flatten)).take (16 * j) =
          hcts.flatten.take (16 * j) := by
        rw [List.take_append_eq_append_take, Nat.sub_eq_zero_of_le (by omega),
          List.take_zero, List.append_nil]
      rw [htk]
      obtain ⟨hH, -⟩ := htruncH j hin
      rcases hH [] [] with herr | ⟨stE, fE, mE, hok⟩
      · rw [herr]
      · simp only [hok]
        rw [read_records_nil C.cbcDecrypt stE [] ⟨[]⟩ mE]
    · rcases Nat.lt_or_ge (16 * j) (hcts.flatten.length + 16) with hmid2 | hafter
      · -- the cut lands exactly at the end of the header fields
        have hex : 16 * j = hcts.flatten.length := by omega
        have htk : (hcts.flatten ++ (Ws ++ rcts.flatten)).take (16 * j) =
            hcts.flatten ++ [] := by
          rw [hex, List.take_append_eq_append_take, List.take_length, Nat.sub_self,
            List.take_zero]
        rw [htk, hcompH [] [] []]
        rw [read_header_nil]
      · -- the cut is past the end-of-header sentinel
        have hsplit : (hcts.flatten ++ (Ws ++ rcts.flatten)).take (16 * j) =
            hcts.flatten ++ (Ws ++ rcts.flatten.take (16 * j -
              hcts.flatten.length - 16)) := by
          rw [List.take_append_eq_append_take, List.take_of_length_le (by omega),
            List.take_append_eq_append_take, List.take_of_length_le (by omega),
            hWs16]
        obtain ⟨j', hj'⟩ : ∃ j', 16 * j - hcts.flatten.length - 16 = 16 * j' :=
          ⟨(16 * j - hcts.flatten.length - 16) / 16, by omega⟩
        rw [hsplit, hj']
        have h2 : read_header C.cbcDecrypt
            (C.cbcInit (C.ecbDecrypt (stretch_password C.sha256 password v.f_salt
                v.f_iter) v.f_b1 ++
              C.ecbDecrypt (stretch_password C.sha256 password v.f_salt v.f_iter)
                v.f_b2) v.f_iv)
            (hcts.flatten ++ (Ws ++ rcts.flatten.take (16 * j'))) [] [] =
            .ok (v.header,
                 [] ++ ((v.header.map Prod.snd).map Field.raw_value).flatten, stS,
                 rcts.flatten.take (16 * j')) := by
          rw [hcompH (Ws ++ rcts.flatten.take (16 * j')) [] [], hrebuild,
            read_header_sentinel_step (hWsread (rcts.flatten.take (16 * j'))) rfl]
        simp only [h2]
        rcases Nat.lt_or_ge (16 * j') rcts.flatten.length with hrin | hrout
        · rcases htruncR j' hrin []
              ([] ++ ((v.header.map Prod.snd).map Field.raw_value).flatten) with
            herr | ⟨stE, rE, mE, hok⟩
          · rw [herr]
          · simp only [hok]
            rw [if_pos]
            simp only [List.take_nil]
            exact (hdigestne _ _)
        · have hreq : 16 * j' = rcts.flatten.length := by omega
          have htk2 : rcts.flatten.take (16 * j') = rcts.flatten ++ [] := by
            rw [hreq, List.take_length, List.append_nil]
          rw [htk2, hcompR [] [] _]
          rw [read_records_nil]

/-! ### C1: save/load round trip -/

/-- **C1.**  For every well-formed vault with a non-empty record sequence
and every password, saving with `write_to_file` succeeds (the
self-verification read-back passes) and loading the saved bytes with the
same password yields a vault whose header and record field content —
every field of every record, the known types 0x02-0x06 and all opaque
types alike — equals the original's byte for byte (`Field` equality
compares `raw_type`, `raw_len` and `raw_value` exactly).  The cipher,
hash, keyed-digest and randomness collaborators are parameters
constrained only by their documented contracts: 16-byte blocks in and
out, chained decryption inverting chained encryption state-for-state,
32-byte digests, `urandom(n)` returning `n` bytes, and no ciphertext
block colliding with the literal end-of-file marker. -/
theorem C1_save_load_roundtrip {σ ρ : Type} (C : Crypto σ)
    (urand : ρ → Nat → Bytes × ρ) (v : Vault) (password : Bytes) (rng : ρ)
    (Hsha : ∀ b : Bytes, (C.sha256 b).length = 32)
    (Hhmac : ∀ k m : Bytes, (C.hmac k m).length = 32)
    (Hlen : ∀ (st : σ) (b : Bytes), b.length = 16 → ((C.cbcEncrypt st b).1).length = 16)
    (Hnm : ∀ (st : σ) (b : Bytes), b.length = 16 → (C.cbcEncrypt st b).1 ≠ pws3EofMarker)
    (Hinv : ∀ (st : σ) (b : Bytes), b.length = 16 →
      C.cbcDecrypt st (C.cbcEncrypt st b).1 = (b, (C.cbcEncrypt st b).2))
    (Hur : ∀ (r : ρ) (n : Nat), ((urand r n).1).length = n)
    (Hv : WfVault v) (Hne : v.records ≠ []) :
    ∃ content : Bytes, write_to_file C urand v password rng = .ok content ∧
      ∃ v₂ : Vault, read_from_file C content password = .ok v₂ ∧
        v₂.header = v.header ∧ v₂.records = v.records := by
  obtain ⟨mid, hwc, hmod, hread, htrunc⟩ :=
    save_parse C urand v password rng Hsha Hhmac Hlen Hnm Hinv Hur Hv
  have hflat : ([v.f_tag, v.f_salt, le32pack v.f_iter,
      C.sha256 (vaultStretched C v password), v.f_b1, v.f_b2, v.f_b3, v.f_b4,
      v.f_iv] ++ mid ++ [pws3EofMarker, vaultMac C v password]).flatten =
      vaultBoiler C v password ++
        (mid.flatten ++ (pws3EofMarker ++ vaultMac C v password)) := by
    simp [vaultBoiler, List.append_assoc]
  have htake : (vaultMac C v password).take 32 = vaultMac C v password := by
    refine List.take_of_length_le (le_of_eq ?_)
    simp only [vaultMac]
    rw [Hhmac]
  have hr := hread (vaultMac C v password)
  rw [if_pos htake] at hr
  refine ⟨vaultBoiler C v password ++
    (mid.flatten ++ (pws3EofMarker ++ vaultMac C v password)), ?_, ?_⟩
  · simp only [write_to_file, hwc]
    rw [hflat, hr]
  · exact ⟨_, hr, rfl, rfl⟩

/-! ### C3: truncated streams fail the load -/

/-- **C3.**  For every well-formed vault saved by `write_to_file`, loading
any truncation of the saved file that ends at a point where
`_read_field_tlv` expects a 16-byte block — the boilerplate is 152 bytes,
so those points are the offsets `152 + 16·j` up to the end-of-file marker,
covering both the first block of each field and every continuation
block — fails by raising `VaultFormatError`: a truncated stream is never
loaded as a normal container.  (When the stream ends at a field's first
block the loop's `EOF encountered` error is raised directly; when it ends
at a continuation block `_read_field_tlv` returns `None`, but the load
then fails anyway — the next loop read or the 32-byte integrity-tag
comparison, against a now-empty stream, raises `VaultFormatError`.) -/
theorem C3_truncated_load {σ ρ : Type} (C : Crypto σ)
    (urand : ρ → Nat → Bytes × ρ) (v : Vault) (password : Bytes) (rng : ρ)
    (Hsha : ∀ b : Bytes, (C.sha256 b).length = 32)
    (Hhmac : ∀ k m : Bytes, (C.hmac k m).length = 32)
    (Hlen : ∀ (st : σ) (b : Bytes), b.length = 16 → ((C.cbcEncrypt st b).1).length = 16)
    (Hnm : ∀ (st : σ) (b : Bytes), b.length = 16 → (C.cbcEncrypt st b).1 ≠ pws3EofMarker)
    (Hinv : ∀ (st : σ) (b : Bytes), b.length = 16 →
      C.cbcDecrypt st (C.cbcEncrypt st b).1 = (b, (C.cbcEncrypt st b).2))
    (Hur : ∀ (r : ρ) (n : Nat), ((urand r n).1).length = n)
    (Hv : WfVault v) :
    ∃ content : Bytes, write_to_file C urand v password rng = .ok content ∧
      200 ≤ content.length ∧
      ∀ j : Nat, 152 + 16 * j + 48 ≤ content.length →
        read_from_file C (content.take (152 + 16 * j)) password =
          .error .formatError := by
  obtain ⟨mid, hwc, hmod, hread, htrunc⟩ :=
    save_parse C urand v password rng Hsha Hhmac Hlen Hnm Hinv Hur Hv
  obtain ⟨htag, hsalt, hiter, hb1, hb2, hb3, hb4, hiv, -, -⟩ := Hv
  have hboilerlen : (vaultBoiler C v password).length = 152 := by
    have hp : pws3Tag.length = 4 := rfl
    have hl : (le32pack v.f_iter).length = 4 := rfl
    simp only [vaultBoiler, List.length_append, hsalt, hb1, hb2, hb3, hb4, hiv,
      Hsha, htag, hp, hl]
  have hmaclen : (vaultMac C v password).length = 32 := by
    simp only [vaultMac]
    rw [Hhmac]
  have hflat : ([v.f_tag, v.f_salt, le32pack v.f_iter,
      C.sha256 (vaultStretched C v password), v.f_b1, v.f_b2, v.f_b3, v.f_b4,
      v.f_iv] ++ mid ++ [pws3EofMarker, vaultMac C v password]).flatten =
      vaultBoiler C v password ++
        (mid.flatten ++ (pws3EofMarker ++ vaultMac C v password)) := by
    simp [vaultBoiler, List.append_assoc]
  have htake : (vaultMac C v password).take 32 = vaultMac C v password :=
    List.take_of_length_le (le_of_eq hmaclen)
  have hr := hread (vaultMac C v password)
  rw [if_pos htake] at hr
  refine ⟨vaultBoiler C v password ++
    (mid.flatten ++ (pws3EofMarker ++ vaultMac C v password)), ?_, ?_, ?_⟩
  · simp only [write_to_file, hwc]
    rw [hflat, hr]
  · simp only [List.length_append, hboilerlen, hmaclen]
    have : pws3EofMarker.length = 16 := by decide
    omega
  · intro j hj
    have hmarker : pws3EofMarker.length = 16 := by decide
    have hjle : 16 * j ≤ mid.flatten.length := by
      simp only [List.length_append, hboilerlen, hmaclen, hmarker] at hj
      omega
    have htk : (vaultBoiler C v password ++
        (mid.flatten ++ (pws3EofMarker ++ vaultMac C v password))).take
          (152 + 16 * j) =
        vaultBoiler C v password ++ mid.flatten.take (16 * j) := by
      rw [List.take_append_eq_append_take,
        List.take_of_length_le (by rw [hboilerlen]; omega),
        hboilerlen, Nat.add_sub_cancel_left, List.take_append_eq_append_take,
        Nat.sub_eq_zero_of_le hjle, List.take_zero, List.append_nil]
    rw [htk]
    exact htrunc j hjle

/-! ### C9: the verified integrity tag -/

/-- The accumulation order the spec describes for the integrity digest:
every header field's value, then the end-of-header sentinel's (empty)
value, then for each record every field's value followed by its
end-of-record sentinel's (empty) value.  Defined from the spec's words,
to be compared with the digest the code verifies. -/
def macSpecSequence (v : Vault) : List Bytes :=
  (v.header.map (fun p => p.2.raw_value)) ++ [[]] ++
    (v.records.map (fun r => r.raw_fields.map (fun p => p.2.raw_value) ++ [[]])).flatten

theorem macSpecSequence_flatten (v : Vault) :
    (macSpecSequence v).flatten = headerMac v ++ recordsMac v.records := by
  simp only [macSpecSequence, headerMac, List.flatten_append, List.flatten_cons,
    List.flatten_nil, List.append_nil, List.map_map]
  congr 1
  induction v.records with
  | nil => simp [recordsMac]
  | cons r rs ih =>
    simp only [List.map_cons, List.flatten_cons, List.flatten_append, recordsMac,
      List.map_map] at *
    rw [← ih]
    simp only [List.flatten_nil, List.append_nil]
    congr 2

/-- **C9.**  On a load of a saved container body followed by any trailing
tag bytes `t`, the value verified against `t.take 32` is exactly the keyed
digest, under MAC key L, of the concatenation of the spec-described
sequence: every header field's value, the end-of-header sentinel's empty
value, and for each record every field's value followed by its
end-of-record sentinel's empty value (`macSpecSequence`).  A mismatch
raises `VaultFormatError`, a distinct error from `BadPasswordError`. -/
theorem C9_integrity_tag {σ ρ : Type} (C : Crypto σ)
    (urand : ρ → Nat → Bytes × ρ) (v : Vault) (password : Bytes) (rng : ρ)
    (Hsha : ∀ b : Bytes, (C.sha256 b).length = 32)
    (Hhmac : ∀ k m : Bytes, (C.hmac k m).length = 32)
    (Hlen : ∀ (st : σ) (b : Bytes), b.length = 16 → ((C.cbcEncrypt st b).1).length = 16)
    (Hnm : ∀ (st : σ) (b : Bytes), b.length = 16 → (C.cbcEncrypt st b).1 ≠ pws3EofMarker)
    (Hinv : ∀ (st : σ) (b : Bytes), b.length = 16 →
      C.cbcDecrypt st (C.cbcEncrypt st b).1 = (b, (C.cbcEncrypt st b).2))
    (Hur : ∀ (r : ρ) (n : Nat), ((urand r n).1).length = n)
    (Hv : WfVault v) :
    ∃ body : Bytes,
      write_to_file C urand v password rng = .ok (body ++ vaultMac C v password) ∧
      vaultMac C v password =
        C.hmac (vaultKeyL C v password) (macSpecSequence v).flatten ∧
      (∀ t : Bytes,
        read_from_file C (body ++ t) password =
          if t.take 32 = C.hmac (vaultKeyL C v password) (macSpecSequence v).flatten
          then
            .ok ⟨pws3Tag, v.f_salt, v.f_iter, C.sha256 (vaultStretched C v password),
                 v.f_b1, v.f_b2, v.f_b3, v.f_b4, v.f_iv, t.take 32,
                 v.header, v.records⟩
          else .error .formatError) ∧
      VaultError.formatError ≠ VaultError.badPassword := by
  obtain ⟨mid, hwc, hmod, hread, htrunc⟩ :=
    save_parse C urand v password rng Hsha Hhmac Hlen Hnm Hinv Hur Hv
  have hmac_eq : vaultMac C v password =
      C.hmac (vaultKeyL C v password) (macSpecSequence v).flatten := by
    rw [macSpecSequence_flatten]
    rfl
  have hflat : ([v.f_tag, v.f_salt, le32pack v.f_iter,
      C.sha256 (vaultStretched C v password), v.f_b1, v.f_b2, v.f_b3, v.f_b4,
      v.f_iv] ++ mid ++ [pws3EofMarker, vaultMac C v password]).flatten =
      (vaultBoiler C v password ++ (mid.flatten ++ pws3EofMarker)) ++
        vaultMac C v password := by
    simp [vaultBoiler, List.append_assoc]
  have htake : (vaultMac C v password).take 32 = vaultMac C v password := by
    refine List.take_of_length_le (le_of_eq ?_)
    simp only [vaultMac]
    rw [Hhmac]
  have hr := hread (vaultMac C v password)
  rw [if_pos htake] at hr
  refine ⟨vaultBoiler C v password ++ (mid.flatten ++ pws3EofMarker), ?_, hmac_eq,
    ?_, by simp⟩
  · simp only [write_to_file, hwc]
    rw [hflat]
    have hr' : read_from_file C ((vaultBoiler C v password ++
        (mid.flatten ++ pws3EofMarker)) ++ vaultMac C v password) password =
        .ok ⟨pws3Tag, v.f_salt, v.f_iter, C.sha256 (vaultStretched C v password),
             v.f_b1, v.f_b2, v.f_b3, v.f_b4, v.f_iv,
             (vaultMac C v password).take 32, v.header, v.records⟩ := by
      rw [show (vaultBoiler C v password ++ (mid.flatten ++ pws3EofMarker)) ++
        vaultMac C v password = vaultBoiler C v password ++
          (mid.flatten ++ (pws3EofMarker ++ vaultMac C v password)) by
            simp [List.append_assoc]]
      exact hr
    rw [hr']
  · intro t
    rw [show (vaultBoiler C v password ++ (mid.flatten ++ pws3EofMarker)) ++ t =
      vaultBoiler C v password ++ (mid.flatten ++ (pws3EofMarker ++ t)) by
        simp [List.append_assoc]]
    rw [hread t, ← hmac_eq]

/-! ### C10: fields after the last sentinel are discarded -/

/-- **C10.**  In the record-reading loop, a record is appended to the
record list only when a 0xff end-of-record sentinel is decoded: if a
well-formed record sequence is followed in the stream by further written
fields with no sentinel after them before the end-of-file marker, the loop
returns exactly the records flushed by sentinels — the trailing fields are
fed to the HMAC accumulation (they appear in the returned MAC message) but
are discarded with the current-record accumulator and never appear in the
returned record list. -/
theorem C10_trailing_fields_discarded {σ ρ : Type} {enc dec : σ → Bytes → Bytes × σ}
    {urand : ρ → Nat → Bytes × ρ}
    (Hlen : ∀ (s : σ) (b : Bytes), b.length = 16 → ((enc s b).1).length = 16)
    (Hnm : ∀ (s : σ) (b : Bytes), b.length = 16 → (enc s b).1 ≠ pws3EofMarker)
    (Hinv : ∀ (s : σ) (b : Bytes), b.length = 16 → dec s (enc s b).1 = (b, (enc s b).2))
    (Hur : ∀ (r : ρ) (n : Nat), ((urand r n).1).length = n)
    (rs : List Record) (tfs : List Field) (st : σ) (rng : ρ) (buf : Bytes)
    (hrs : ∀ r ∈ rs, WfRecord r) (htfs : WfFieldList tfs) :
    ∃ (rcts tcts : List Bytes) (st₁ : σ) (rng₁ : ρ) (st₂ : σ) (rng₂ : ρ),
      write_records enc urand rs st rng buf = .ok (rcts, st₁, rng₁, buf ++ recordsMac rs) ∧
      write_field_list enc urand tfs st₁ rng₁ (buf ++ recordsMac rs) =
        .ok (tcts, st₂, rng₂,
             (buf ++ recordsMac rs) ++ (tfs.map Field.raw_value).flatten) ∧
      ∀ (recs : List Record) (macBuf : Bytes) (rest : Bytes),
        read_records dec st
            (rcts.flatten ++ (tcts.flatten ++ (pws3EofMarker ++ rest)))
            recs ⟨[]⟩ macBuf =
          .ok (recs ++ rs,
               (macBuf ++ recordsMac rs) ++ (tfs.map Field.raw_value).flatten,
               st₂, rest) := by
  obtain ⟨rcts, st₁, rng₁, hwR, hmodR, hcompR, -⟩ :=
    write_read_records Hlen Hnm Hinv Hur rs st rng buf hrs
  obtain ⟨tcts, st₂, rng₂, hwT, -, -, hcompT, -⟩ :=
    write_read_field_list Hlen Hnm Hinv Hur tfs st₁ rng₁ (buf ++ recordsMac rs) htfs
  refine ⟨rcts, tcts, st₁, rng₁, st₂, rng₂, hwR, hwT, ?_⟩
  intro recs macBuf rest
  rw [hcompR (tcts.flatten ++ (pws3EofMarker ++ rest)) recs macBuf]
  rw [hcompT (pws3EofMarker ++ rest) (recs ++ rs) ⟨[]⟩ (macBuf ++ recordsMac rs)]
  rw [read_records_eof_step (read_field_tlv_marker dec st₂ rest)]

/-! ### C4: the write path's filesystem effects -/

theorem applyOps_dest_preserved :
    ∀ (ops : List FsOp) (fs : FileSystem),
      (∀ op ∈ ops, op ≠ FsOp.removeDest ∧ op ≠ FsOp.renameTempToDest) →
      (applyOps fs ops).dest = fs.dest := by
  intro ops
  induction ops with
  | nil => intro fs _; rfl
  | cons op ops ih =>
    intro fs hops
    have hop := hops op (List.mem_cons_self op ops)
    have hrest : ∀ o ∈ ops, o ≠ FsOp.removeDest ∧ o ≠ FsOp.renameTempToDest :=
      fun o ho => hops o (List.mem_cons_of_mem op ho)
    show (applyOps (applyOp fs op) ops).dest = fs.dest
    rw [ih (applyOp fs op) hrest]
    cases op with
    | createTemp => rfl
    | writeTemp b => rfl
    | removeTemp => rfl
    | removeDest => exact absurd rfl hop.1
    | renameTempToDest => exact absurd rfl hop.2

theorem applyOps_writeTemps :
    ∀ (bs : List Bytes) (d : Option Bytes) (acc : Bytes),
      applyOps ⟨d, some acc⟩ (bs.map FsOp.writeTemp) = ⟨d, some (acc ++ bs.flatten)⟩ := by
  intro bs
  induction bs with
  | nil => intro d acc; simp [applyOps]
  | cons b bs ih =>
    intro d acc
    show applyOps (applyOp ⟨d, some acc⟩ (FsOp.writeTemp b)) (bs.map FsOp.writeTemp) = _
    rw [show applyOp ⟨d, some acc⟩ (FsOp.writeTemp b) =
      (⟨d, some (acc ++ b)⟩ : FileSystem) from rfl]
    rw [ih]
    simp [List.append_assoc]

/-- **C4 (amended).**  The write path's filesystem effects, given that
serialisation succeeds: (a) a crash at any point up to and including the
last write of the temporary file — every operation before the destination
is removed — leaves the pre-existing destination byte-for-byte unchanged;
(b) when the self-verification read-back fails with a caught
`RuntimeError`, the trace ends by deleting the temporary file, the
destination is never touched, and `write_to_file` raises
`VaultFormatError`; (c) when the read-back succeeds, the full trace
removes the destination and renames the temporary file onto it, so the
completed save installs exactly the new content.  (The original claim's
"unchanged at any point before the final rename" fails: the code removes
the destination with `os.remove(filename)` *before* `os.rename`, so a
crash between those two calls loses the destination — see the
counterexample.) -/
theorem C4_crash_safety {σ ρ : Type} (C : Crypto σ) (urand : ρ → Nat → Bytes × ρ)
    (v : Vault) (password : Bytes) (rng : ρ) (fs : FileSystem)
    (chunks : List Bytes)
    (Hok : write_chunks C urand v password rng = .ok chunks) :
    (∀ k : Nat, k ≤ chunks.length + 1 →
      (applyOps fs ((write_trace C urand v password rng).take k)).dest = fs.dest) ∧
    (∀ e : VaultError, read_from_file C chunks.flatten password = .error e →
      (∀ c : Nat, e ≠ .exited c) →
      write_trace C urand v password rng =
        .createTemp :: chunks.map FsOp.writeTemp ++ [.removeTemp] ∧
      applyOps fs (write_trace C urand v password rng) = ⟨fs.dest, none⟩ ∧
      write_to_file C urand v password rng = .error .formatError) ∧
    (∀ v₂ : Vault, read_from_file C chunks.flatten password = .ok v₂ →
      applyOps fs (write_trace C urand v password rng) =
        ⟨some chunks.flatten, none⟩ ∧
      write_to_file C urand v password rng = .ok chunks.flatten) := by
  have htr : write_trace C urand v password rng =
      .createTemp :: chunks.map FsOp.writeTemp ++
        (match read_from_file C chunks.flatten password with
         | .error (.exited _) => []
         | .error _ => [.removeTemp]
         | .ok _ => [.removeDest, .renameTempToDest]) := by
    simp only [write_trace, Hok]
  have hApre : applyOps fs (FsOp.createTemp :: chunks.map FsOp.writeTemp) =
      ⟨fs.dest, some chunks.flatten⟩ := by
    show applyOps (applyOp fs FsOp.createTemp) (chunks.map FsOp.writeTemp) = _
    rw [show applyOp fs FsOp.createTemp = (⟨fs.dest, some []⟩ : FileSystem) from rfl,
      applyOps_writeTemps]
    simp
  refine ⟨?_, ?_, ?_⟩
  · intro k hk
    rw [htr]
    have hlen : (FsOp.createTemp :: chunks.map FsOp.writeTemp).length =
        chunks.length + 1 := by
      simp
    rw [take_append_le _ _ k (by rw [hlen]; omega)]
    refine applyOps_dest_preserved _ fs ?_
    intro op hop
    have hmem := List.mem_of_mem_take hop
    rcases List.mem_cons.mp hmem with h | h
    · subst h
      exact ⟨by simp, by simp⟩
    · obtain ⟨b, -, hb⟩ := List.mem_map.mp h
      subst hb
      exact ⟨by simp, by simp⟩
  · intro e he hne
    have hm : (match read_from_file C chunks.flatten password with
        | .error (.exited _) => ([] : List FsOp)
        | .error _ => [.removeTemp]
        | .ok _ => [.removeDest, .renameTempToDest]) = [.removeTemp] := by
      rw [he]
      cases e with
      | exited c => exact absurd rfl (hne c)
      | versionError => rfl
      | badPassword => rfl
      | formatError => rfl
      | assertError => rfl
      | packError => rfl
    rw [htr, hm]
    refine ⟨rfl, ?_, ?_⟩
    · rw [applyOps, List.foldl_append]
      show applyOp (applyOps fs (FsOp.createTemp :: chunks.map FsOp.writeTemp))
        FsOp.removeTemp = _
      rw [hApre]
      rfl
    · simp only [write_to_file, Hok]
      rw [he]
      cases e with
      | exited c => exact absurd rfl (hne c)
      | versionError => rfl
      | badPassword => rfl
      | formatError => rfl
      | assertError => rfl
      | packError => rfl
  · intro v₂ he
    have hm : (match read_from_file C chunks.flatten password with
        | .error (.exited _) => ([] : List FsOp)
        | .error _ => [.removeTemp]
        | .ok _ => [.removeDest, .renameTempToDest]) =
        [.removeDest, .renameTempToDest] := by
      rw [he]
    rw [htr, hm]
    refine ⟨?_, ?_⟩
    · rw [applyOps, List.foldl_append]
      show applyOps (applyOps fs (FsOp.createTemp :: chunks.map FsOp.writeTemp))
        [FsOp.removeDest, FsOp.renameTempToDest] = _
      rw [hApre]
      rfl
    · simp only [write_to_file, Hok]
      rw [he]

/-- **C4, counterexample.**  "the pre-existing destination file is left
byte-for-byte unchanged at any point before the final rename" is false: on
a successful save the last filesystem operation is the rename, yet after
all operations *before* it the destination file (initially `[1, 2, 3]`) is
already gone — `os.remove(filename)` runs before `os.rename` (`vault.py`
lines 384-385), so a crash in between loses the destination. -/
theorem C4_counterexample :
    (write_trace toyC toyUrand toyV toyPw ()).getLast? =
      some FsOp.renameTempToDest ∧
    (applyOps ⟨some [1, 2, 3], none⟩
      (write_trace toyC toyUrand toyV toyPw ()).dropLast).dest = none ∧
    (some [1, 2, 3] : Option Bytes) ≠ none := by
  decide

theorem C4_crash_safety_witness :
    (applyOps ⟨some [1, 2, 3], none⟩
      ((write_trace toyC toyUrand toyV toyPw ()).take 0)).dest =
      some [1, 2, 3] := by
  cases hok : write_chunks toyC toyUrand toyV toyPw () with
  | error e =>
    exfalso
    have h2 : (write_chunks toyC toyUrand toyV toyPw ()).isOk = true := by
      decide
    rw [hok] at h2
    simp [Except.isOk, Except.toBool] at h2
  | ok chunks =>
    exact (C4_crash_safety toyC toyUrand toyV toyPw ()
      ⟨some [1, 2, 3], none⟩ chunks hok).1 0 (Nat.zero_le _)

theorem C1_save_load_roundtrip_witness :
    ∃ content : Bytes, write_to_file toyC toyUrand toyV toyPw () = .ok content ∧
      ∃ v₂ : Vault, read_from_file toyC content toyPw = .ok v₂ ∧
        v₂.header = toyV.header ∧ v₂.records = toyV.records :=
  C1_save_load_roundtrip toyC toyUrand toyV toyPw ()
    toySha_length toyHmac_length toyEnc_length toyEnc_ne_marker toyDec_toyEnc
    toyUrand_length (by decide) (by decide)

theorem C3_truncated_load_witness :
    ∃ content : Bytes, write_to_file toyC toyUrand toyV toyPw () = .ok content ∧
      200 ≤ content.length ∧
      ∀ j : Nat, 152 + 16 * j + 48 ≤ content.length →
        read_from_file toyC (content.take (152 + 16 * j)) toyPw =
          .error .formatError :=
  C3_truncated_load toyC toyUrand toyV toyPw () toySha_length toyHmac_length
    toyEnc_length toyEnc_ne_marker toyDec_toyEnc toyUrand_length (by decide)

theorem C9_integrity_tag_witness :
    ∃ body : Bytes,
      write_to_file toyC toyUrand toyV toyPw () =
        .ok (body ++ vaultMac toyC toyV toyPw) ∧
      vaultMac toyC toyV toyPw =
        toyC.hmac (vaultKeyL toyC toyV toyPw) (macSpecSequence toyV).flatten ∧
      (∀ t : Bytes,
        read_from_file toyC (body ++ t) toyPw =
          if t.take 32 =
              toyC.hmac (vaultKeyL toyC toyV toyPw) (macSpecSequence toyV).flatten
          then
            .ok ⟨pws3Tag, toyV.f_salt, toyV.f_iter,
                 toyC.sha256 (vaultStretched toyC toyV toyPw),
                 toyV.f_b1, toyV.f_b2, toyV.f_b3, toyV.f_b4, toyV.f_iv,
                 t.take 32, toyV.header, toyV.records⟩
          else .error .formatError) ∧
      VaultError.formatError ≠ VaultError.badPassword :=
  C9_integrity_tag toyC toyUrand toyV toyPw () toySha_length toyHmac_length
    toyEnc_length toyEnc_ne_marker toyDec_toyEnc toyUrand_length (by decide)

theorem C10_trailing_fields_discarded_witness :
    ∃ (rcts tcts : List Bytes) (st₁ : Unit) (rng₁ : Unit) (st₂ : Unit) (rng₂ : Unit),
      write_records toyEnc toyUrand toyV.records () () [] =
        .ok (rcts, st₁, rng₁, [] ++ recordsMac toyV.records) ∧
      write_field_list toyEnc toyUrand [⟨9, 1, [42]⟩] st₁ rng₁
          ([] ++ recordsMac toyV.records) =
        .ok (tcts, st₂, rng₂,
             ([] ++ recordsMac toyV.records) ++
               (([⟨9, 1, [42]⟩] : List Field).map Field.raw_value).flatten) ∧
      ∀ (recs : List Record) (macBuf : Bytes) (rest : Bytes),
        read_records toyDec ()
            (rcts.flatten ++ (tcts.flatten ++ (pws3EofMarker ++ rest)))
            recs ⟨[]⟩ macBuf =
          .ok (recs ++ toyV.records,
               (macBuf ++ recordsMac toyV.records) ++
                 (([⟨9, 1, [42]⟩] : List Field).map Field.raw_value).flatten,
               st₂, rest) :=
  C10_trailing_fields_discarded toyEnc_length toyEnc_ne_marker toyDec_toyEnc
    toyUrand_length toyV.records [⟨9, 1, [42]⟩] () () [] (by decide) (by decide)

end Loxodo
